import Mathlib

/-!
Verification of the URL/query-parameter synchronizer, the JSON/XML body
formatter and the history data model of the poopman HTTP client.

The Rust code is embedded shallowly:

* `src/url_params.rs` works on `&str` slices at byte granularity (`find`,
  `split`, range slicing are all byte-based there), so that module is
  modelled on `List Nat`, each element one byte of the UTF-8 text.
* `src/code_formatter.rs` works on `&str` at char granularity through
  `serde_json`, so that module is modelled on `List Char` (Lean `Char` and
  Rust `char` are both Unicode scalar values).
* External collaborator crates (`urlencoding`, `url`/`form_urlencoded`,
  `serde_json`) are modelled to the precision the claims need; each model
  carries a comment saying what it models and which behaviour is abstracted.
-/

namespace Poopman

/-! ## Byte-string utilities (Rust `&str` byte-level primitives) -/

/-- Bytes of an ASCII Lean string literal, used to write concrete inputs. -/
def ascii (s : String) : List Nat := s.data.map Char.toNat

/-- All elements are bytes, i.e. below 256 (`&str` content is a byte sequence). -/
def allBytes (s : List Nat) : Prop := ∀ b ∈ s, b < 256

instance (s : List Nat) : Decidable (allBytes s) := by
  unfold allBytes; infer_instance

/-- Index of the first occurrence of byte `b`, as Rust `str::find(char)`
returns the first matching byte index for an ASCII needle. -/
def findByte (b : Nat) : List Nat → Option Nat
  | [] => none
  | c :: rest =>
    if c = b then some 0
    else match findByte b rest with
      | some i => some (i + 1)
      | none => none

/-- Rust `str::split(sep)` for a one-byte separator: the list of segments
between occurrences of `sep`; the empty string yields one empty segment. -/
def splitOnByte (b : Nat) : List Nat → List (List Nat)
  | [] => [[]]
  | c :: rest =>
    if c = b then [] :: splitOnByte b rest
    else match splitOnByte b rest with
      | s :: ss => (c :: s) :: ss
      | [] => [[c]]

/-- `Vec::join(sep)`: concatenate the parts with `sep` between them. -/
def joinSep (sep : List Nat) : List (List Nat) → List Nat
  | [] => []
  | [x] => x
  | x :: xs => x ++ sep ++ joinSep sep xs

/-! ## Model of the `urlencoding` crate (collaborator of `url_params.rs`)

`urlencoding::encode` percent-encodes every byte outside `A-Z a-z 0-9 - . _ ~`
with upper-case hex.  `urlencoding::decode` turns `%XX` (two hex digits) back
into a byte, leaves a `%` that is not followed by two hex digits literally,
and then fails (Rust `FromUtf8Error`) iff the decoded byte sequence is not
valid UTF-8. -/

/-- Byte kept verbatim by `urlencoding::encode` (the unreserved set). -/
def isUnreservedByte (b : Nat) : Bool :=
  (0x41 ≤ b && b ≤ 0x5A) || (0x61 ≤ b && b ≤ 0x7A) ||
  (0x30 ≤ b && b ≤ 0x39) || b = 0x2D || b = 0x2E || b = 0x5F || b = 0x7E

/-- Upper-case hex digit for a nibble. -/
def hexUpper (n : Nat) : Nat := if n < 10 then 0x30 + n else 0x41 + (n - 10)

/-- `urlencoding::encode` on a single byte. -/
def encodeByte (b : Nat) : List Nat :=
  if isUnreservedByte b then [b] else [0x25, hexUpper (b / 16), hexUpper (b % 16)]

/-- `urlencoding::encode`. -/
def urlencode (s : List Nat) : List Nat := s.flatMap encodeByte

/-- Value of a hex-digit byte (`0-9`, `A-F`, `a-f`). -/
def fromHexDigit (b : Nat) : Option Nat :=
  if 0x30 ≤ b && b ≤ 0x39 then some (b - 0x30)
  else if 0x41 ≤ b && b ≤ 0x46 then some (b - 0x41 + 10)
  else if 0x61 ≤ b && b ≤ 0x66 then some (b - 0x61 + 10)
  else none

/-- Percent-unescaping on raw bytes (`urlencoding::decode_binary`, also the
behaviour of `percent_encoding::percent_decode` used by `form_urlencoded`):
`%` followed by two hex digits becomes one byte, any other `%` stays literal
and scanning continues right after it. -/
def decodeBinary : List Nat → List Nat
  | [] => []
  | b :: rest =>
    if b = 0x25 then
      match rest with
      | hd :: ld :: rest2 =>
        match fromHexDigit hd, fromHexDigit ld with
        | some hv, some lv => (16 * hv + lv) :: decodeBinary rest2
        | _, _ => 0x25 :: decodeBinary (hd :: ld :: rest2)
      | _ => 0x25 :: rest
    else b :: decodeBinary rest

/-- One step of UTF-8 validation: `k` continuation bytes are still expected,
the next of them constrained to `[lo, hi]`, the following ones to `[80, BF]`;
`k = 0` means a fresh scalar starts here.  This is exactly the byte-range
table of RFC 3629 that Rust `String::from_utf8` checks. -/
def validUtf8Aux : Nat → Nat → Nat → List Nat → Bool
  | _, _, 0, [] => true
  | _, _, _ + 1, [] => false
  | lo, hi, k + 1, b :: r => lo ≤ b && b ≤ hi && validUtf8Aux 0x80 0xBF k r
  | _, _, 0, b :: r =>
    if b ≤ 0x7F then validUtf8Aux 0 0 0 r
    else if 0xC2 ≤ b && b ≤ 0xDF then validUtf8Aux 0x80 0xBF 1 r
    else if b = 0xE0 then validUtf8Aux 0xA0 0xBF 2 r
    else if b = 0xED then validUtf8Aux 0x80 0x9F 2 r
    else if 0xE1 ≤ b && b ≤ 0xEF then validUtf8Aux 0x80 0xBF 2 r
    else if b = 0xF0 then validUtf8Aux 0x90 0xBF 3 r
    else if b = 0xF4 then validUtf8Aux 0x80 0x8F 3 r
    else if 0xF1 ≤ b && b ≤ 0xF3 then validUtf8Aux 0x80 0xBF 3 r
    else false

/-- The byte list is well-formed UTF-8 (Rust `String::from_utf8` succeeds). -/
def validUtf8 (s : List Nat) : Bool := validUtf8Aux 0 0 0 s

/-- `urlencoding::decode`: percent-unescape, then fail iff the result is not
valid UTF-8. -/
def urlencodingDecode (s : List Nat) : Option (List Nat) :=
  let d := decodeBinary s
  if validUtf8 d then some d else none

/-! ## Lossy UTF-8 repair (`String::from_utf8_lossy`)

Needed only to model `form_urlencoded`'s decoding; every input the claims
exercise on that path is valid UTF-8, where the function is the identity. -/

/-- Start-byte classification: `(lo, hi, k)` means `k` continuation bytes
follow, the first constrained to `[lo, hi]`. -/
def utf8Class (b : Nat) : Option (Nat × Nat × Nat) :=
  if 0xC2 ≤ b && b ≤ 0xDF then some (0x80, 0xBF, 1)
  else if b = 0xE0 then some (0xA0, 0xBF, 2)
  else if b = 0xED then some (0x80, 0x9F, 2)
  else if 0xE1 ≤ b && b ≤ 0xEF then some (0x80, 0xBF, 2)
  else if b = 0xF0 then some (0x90, 0xBF, 3)
  else if b = 0xF4 then some (0x80, 0x8F, 3)
  else if 0xF1 ≤ b && b ≤ 0xF3 then some (0x80, 0xBF, 3)
  else none

/-- Take `k` continuation bytes, the first constrained to `[lo, hi]`;
returns the bytes taken, the remaining input and whether all `k` were found.
On failure the remaining input restarts at the first offending byte, which is
the maximal-subpart resumption point of `String::from_utf8_lossy`. -/
def takeConts : Nat → Nat → Nat → List Nat → List Nat × List Nat × Bool
  | _, _, 0, s => ([], s, true)
  | _, _, _ + 1, [] => ([], [], false)
  | lo, hi, k + 1, b :: r =>
    if lo ≤ b && b ≤ hi then
      let t := takeConts 0x80 0xBF k r
      (b :: t.1, t.2.1, t.2.2)
    else ([], b :: r, false)

theorem takeConts_rest_le (lo hi k : Nat) (s : List Nat) :
    (takeConts lo hi k s).2.1.length ≤ s.length := by
  induction k generalizing lo hi s with
  | zero => simp [takeConts]
  | succ k ih =>
    cases s with
    | nil => simp [takeConts]
    | cons b r =>
      simp only [takeConts]
      split
      · exact le_trans (ih 0x80 0xBF r) (Nat.le_succ _)
      · simp

/-- `String::from_utf8_lossy`'s repair pass: well-formed scalars are copied,
each maximal subpart of an ill-formed sequence becomes U+FFFD (EF BF BD). -/
def utf8Repair (s : List Nat) : List Nat :=
  match s with
  | [] => []
  | b :: r =>
    if b ≤ 0x7F then b :: utf8Repair r
    else match utf8Class b with
      | none => 0xEF :: 0xBF :: 0xBD :: utf8Repair r
      | some (lo, hi, k) =>
        let t := takeConts lo hi k r
        if t.2.2 then b :: (t.1 ++ utf8Repair t.2.1)
        else 0xEF :: 0xBF :: 0xBD :: utf8Repair t.2.1
termination_by s.length
decreasing_by
  all_goals simp_wf
  all_goals (have h9 := takeConts_rest_le lo hi k rest; omega)

/-- `String::from_utf8_lossy`: the identity on valid UTF-8, otherwise the
repair pass. -/
def utf8Lossy (s : List Nat) : List Nat := if validUtf8 s then s else utf8Repair s

/-! ## Model of `url::Url::parse` plus `query_pairs()` (collaborator)

Modelled from the spec: `parse_query_params` "attempts strict URL parsing
first.  On success, returns all query pairs in order, percent-decoded,
duplicates preserved"; the strict parser is the external `url` crate, whose
code is not part of this repository.  The model follows the WHATWG URL
standard that crate implements, to the depth the claims need: the input is
rejected without a leading scheme (`RelativeUrlWithoutBase`); otherwise tab
and newline bytes are removed, leading/trailing C0-or-space is trimmed, the
fragment starts at the first `#`, the query is what follows the first `?`
before the fragment, and `query_pairs()` parses the query as
`application/x-www-form-urlencoded` (split on `&`, empty sequences skipped,
split each pair at the first `=`, `+` decoded as space, `%XX` unescaped,
invalid UTF-8 replaced).  Validation of the authority after the scheme is not
modelled: the model can accept a URL whose host the real parser rejects.  No
claim below depends on that difference — for the inputs where it could show,
both the strict path and the manual fallback extract the same query text. -/

/-- ASCII letter. -/
def isAsciiAlpha (b : Nat) : Bool := (0x41 ≤ b && b ≤ 0x5A) || (0x61 ≤ b && b ≤ 0x7A)

/-- Byte allowed after the first position of a URL scheme. -/
def isSchemeByte (b : Nat) : Bool :=
  isAsciiAlpha b || (0x30 ≤ b && b ≤ 0x39) || b = 0x2B || b = 0x2D || b = 0x2E

/-- Scan scheme bytes until the terminating `:`; `none` when a byte outside
the scheme alphabet (or the end of input) is reached first. -/
def schemeLoop : List Nat → Option (List Nat)
  | [] => none
  | b :: r => if b = 0x3A then some r else if isSchemeByte b then schemeLoop r else none

/-- The remainder after a well-formed `scheme:` prefix, if any. -/
def parseSchemeRest : List Nat → Option (List Nat)
  | [] => none
  | b :: r => if isAsciiAlpha b then schemeLoop r else none

/-- WHATWG input preparation: remove every tab, LF and CR. -/
def stripTabNewline (s : List Nat) : List Nat :=
  s.filter (fun b => !(b = 0x09 || b = 0x0A || b = 0x0D))

/-- WHATWG input preparation: trim leading and trailing C0 controls/space. -/
def trimC0Space (s : List Nat) : List Nat :=
  ((s.dropWhile (fun b => b ≤ 0x20)).reverse.dropWhile (fun b => b ≤ 0x20)).reverse

/-- `form_urlencoded` decoding of one name or value: `+` means space, then
percent-unescape, then lossy UTF-8 conversion. -/
def formDecode (s : List Nat) : List Nat :=
  utf8Lossy (decodeBinary (s.map (fun b => if b = 0x2B then 0x20 else b)))

/-- `form_urlencoded::parse` collected to pairs, as `Url::query_pairs()`
yields them: split on `&`, skip empty sequences, split each at the first `=`
(a missing `=` gives an empty value), decode both sides. -/
def formUrlencodedParse (query : List Nat) : List (List Nat × List Nat) :=
  (splitOnByte 0x26 query).flatMap fun seg =>
    if seg = [] then []
    else match findByte 0x3D seg with
      | some i => [(formDecode (seg.take i), formDecode (seg.drop (i + 1)))]
      | none => [(formDecode seg, [])]

/-- What precedes the fragment: everything before the first `#`, or the whole
remainder when there is none. -/
def beforeFragment (rest : List Nat) : List Nat :=
  match findByte 0x23 rest with
  | some i => rest.take i
  | none => rest

/-- The query component of the remainder after the scheme: what follows the
first `?` before the fragment; empty when there is no `?`. -/
def extractQuery (rest : List Nat) : List Nat :=
  match findByte 0x3F (beforeFragment rest) with
  | some i => (beforeFragment rest).drop (i + 1)
  | none => []

/-- `Url::parse(url).ok().map(|u| u.query_pairs())`: `none` models a strict
parse error, `some pairs` the collected query pairs of the parsed URL. -/
def urlParseQueryPairs (s : List Nat) : Option (List (List Nat × List Nat)) :=
  match parseSchemeRest (trimC0Space (stripTabNewline s)) with
  | none => none
  | some rest => some (formUrlencodedParse (extractQuery rest))

/-! ## `src/url_params.rs` -/

/-- A query parameter with its enabled state (`QueryParam`). -/
structure QueryParam where
  key : List Nat
  value : List Nat
  enabled : Bool
deriving DecidableEq

/-- `extract_base_url`: the substring before the first `?`, or the whole
string when no `?` is present. -/
def extract_base_url (url : List Nat) : List Nat :=
  match findByte 0x3F url with
  | some pos => url.take pos
  | none => url

/-- One segment of the manual query scan of `parse_query_params`: the
pairs it contributes (empty segments are skipped; a decoder failure is
`unwrap_or_default`, i.e. the empty string; a pair whose key comes out empty
is not pushed). -/
def manualPair (pair : List Nat) : List (List Nat × List Nat) :=
  if pair = [] then []
  else match findByte 0x3D pair with
    | some eqPos =>
      let key := (urlencodingDecode (pair.take eqPos)).getD []
      let value := (urlencodingDecode (pair.drop (eqPos + 1))).getD []
      if key ≠ [] then [(key, value)] else []
    | none =>
      let key := (urlencodingDecode pair).getD []
      if key ≠ [] then [(key, [])] else []

/-- `parse_query_params`: empty input gives no pairs; a strict parse gives
the URL's query pairs; otherwise the text after the first `?` is scanned
manually (split on `&`, each pair split at the first `=`); no `?` gives no
pairs. -/
def parse_query_params (url : List Nat) : List (List Nat × List Nat) :=
  if url = [] then []
  else match urlParseQueryPairs url with
    | some pairs => pairs
    | none =>
      match findByte 0x3F url with
      | some queryStart =>
        (splitOnByte 0x26 (url.drop (queryStart + 1))).flatMap manualPair
      | none => []

/-- `build_url_with_params`: keep the enabled parameters with a non-empty
key, render each as `encode(key)=encode(value)`, join with `&`, and append
behind a `?` unless nothing is left. -/
def build_url_with_params (base_url : List Nat) (params : List QueryParam) : List Nat :=
  let paramParts :=
    (params.filter fun p => p.enabled && !p.key.isEmpty).map
      fun p => urlencode p.key ++ 0x3D :: urlencode p.value
  if paramParts.isEmpty then base_url
  else base_url ++ 0x3F :: joinSep [0x26] paramParts

/-- `params_equal`: list equality after dropping the pairs whose key and
value are both empty. -/
def params_equal (params1 params2 : List (List Nat × List Nat)) : Bool :=
  params1.filter (fun kv => !kv.1.isEmpty || !kv.2.isEmpty) ==
    params2.filter (fun kv => !kv.1.isEmpty || !kv.2.isEmpty)

/-! ## Basic lemmas about the byte-string utilities -/

theorem findByte_eq_none {b : Nat} {s : List Nat} (h : b ∉ s) : findByte b s = none := by
  induction s with
  | nil => rfl
  | cons c rest ih =>
    simp only [List.mem_cons, not_or] at h
    simp only [findByte, if_neg (Ne.symm h.1), ih h.2]

theorem findByte_append {b : Nat} {xs : List Nat} (h : b ∉ xs) (ys : List Nat) :
    findByte b (xs ++ b :: ys) = some xs.length := by
  induction xs with
  | nil => simp [findByte]
  | cons c rest ih =>
    simp only [List.mem_cons, not_or] at h
    simp only [List.cons_append, findByte, if_neg (Ne.symm h.1), List.append_eq]
    rw [ih h.2]
    simp

theorem drop_append_cons (xs : List Nat) (b : Nat) (ys : List Nat) :
    (xs ++ b :: ys).drop (xs.length + 1) = ys := by
  have : xs ++ b :: ys = (xs ++ [b]) ++ ys := by simp
  rw [this]
  have hl : xs.length + 1 = (xs ++ [b]).length := by simp
  rw [hl, List.drop_left]

theorem take_append_cons (xs : List Nat) (b : Nat) (ys : List Nat) :
    (xs ++ b :: ys).take xs.length = xs := by
  rw [List.take_append_of_le_length (by simp), List.take_length]

theorem splitOnByte_no_sep {b : Nat} {x : List Nat} (h : b ∉ x) :
    splitOnByte b x = [x] := by
  induction x with
  | nil => rfl
  | cons c rest ih =>
    simp only [List.mem_cons, not_or] at h
    simp only [splitOnByte, if_neg (Ne.symm h.1), ih h.2]

theorem splitOnByte_append {b : Nat} {x : List Nat} (h : b ∉ x) (t : List Nat) :
    splitOnByte b (x ++ b :: t) = x :: splitOnByte b t := by
  induction x with
  | nil => simp [splitOnByte]
  | cons c rest ih =>
    simp only [List.mem_cons, not_or] at h
    simp only [List.cons_append, splitOnByte, if_neg (Ne.symm h.1), List.append_eq]
    rw [ih h.2]

theorem splitOnByte_joinSep {b : Nat} :
    ∀ {parts : List (List Nat)}, parts ≠ [] → (∀ p ∈ parts, b ∉ p) →
      splitOnByte b (joinSep [b] parts) = parts
  | [], h, _ => absurd rfl h
  | [x], _, hp => by
    simp only [joinSep]
    exact splitOnByte_no_sep (hp x (by simp))
  | x :: y :: rest, _, hp => by
    have hx : b ∉ x := hp x (by simp)
    have hrest : ∀ p ∈ y :: rest, b ∉ p := fun p hm => hp p (by simp [hm])
    calc splitOnByte b (joinSep [b] (x :: y :: rest))
        = splitOnByte b (x ++ b :: joinSep [b] (y :: rest)) := by simp [joinSep]
      _ = x :: splitOnByte b (joinSep [b] (y :: rest)) := splitOnByte_append hx _
      _ = x :: y :: rest := by rw [splitOnByte_joinSep (by simp) hrest]

/-! ## Lemmas about the `urlencoding` model -/

/-- Every byte `urlencoding::encode` can emit: unreserved, `%`, or an
upper-case hex digit. -/
def encOutByte (c : Nat) : Bool :=
  isUnreservedByte c || c = 0x25 || (0x30 ≤ c && c ≤ 0x39) || (0x41 ≤ c && c ≤ 0x46)

theorem encOutByte_props {c : Nat} (h : encOutByte c = true) :
    0x20 < c ∧ c ≠ 0x26 ∧ c ≠ 0x3D ∧ c ≠ 0x3F ∧ c ≠ 0x23 ∧ c ≠ 0x2B ∧ c ≠ 0x3A ∧
      c ≠ 0x09 ∧ c ≠ 0x0A ∧ c ≠ 0x0D := by
  simp only [encOutByte, isUnreservedByte, Bool.or_eq_true, decide_eq_true_eq,
    Bool.and_eq_true] at h
  refine ⟨?_, ?_, ?_, ?_, ?_, ?_, ?_, ?_, ?_, ?_⟩ <;> omega

theorem mem_urlencode {s : List Nat} (hs : allBytes s) {c : Nat} (h : c ∈ urlencode s) :
    encOutByte c = true := by
  simp only [urlencode, List.mem_flatMap] at h
  obtain ⟨b, hb, hc⟩ := h
  have hb256 : b < 256 := hs b hb
  unfold encodeByte at hc
  split at hc
  · rename_i hu
    simp only [List.mem_singleton] at hc
    subst hc
    simp [encOutByte, hu]
  · have hx : ∀ n, n < 16 → (hexUpper n = 0x30 + n ∧ n < 10) ∨
        (hexUpper n = 0x41 + (n - 10) ∧ 10 ≤ n) := by
      intro n hn
      unfold hexUpper
      split <;> rename_i h10
      · exact Or.inl ⟨rfl, h10⟩
      · exact Or.inr ⟨rfl, by omega⟩
    simp at hc
    rcases hc with hc | hc | hc
    · subst hc; simp [encOutByte]
    · subst hc
      rcases hx (b / 16) (by omega) with ⟨he, hlt⟩ | ⟨he, hge⟩ <;>
        simp only [encOutByte, he, Bool.or_eq_true, decide_eq_true_eq, Bool.and_eq_true] <;>
        omega
    · subst hc
      rcases hx (b % 16) (by omega) with ⟨he, hlt⟩ | ⟨he, hge⟩ <;>
        simp only [encOutByte, he, Bool.or_eq_true, decide_eq_true_eq, Bool.and_eq_true] <;>
        omega

theorem urlencode_ne_nil {s : List Nat} (h : s ≠ []) : urlencode s ≠ [] := by
  cases s with
  | nil => exact absurd rfl h
  | cons b rest =>
    simp only [urlencode, List.flatMap_cons]
    intro hcontra
    rcases List.append_eq_nil.mp hcontra with ⟨h1, _⟩
    unfold encodeByte at h1
    split at h1 <;> simp at h1

theorem unreserved_ne_percent {b : Nat} (h : isUnreservedByte b = true) : b ≠ 0x25 := by
  simp only [isUnreservedByte, Bool.or_eq_true, decide_eq_true_eq, Bool.and_eq_true] at h
  omega

theorem decodeBinary_cons_ne {b : Nat} {t : List Nat} (hb : b ≠ 0x25) :
    decodeBinary (b :: t) = b :: decodeBinary t := by
  rw [decodeBinary.eq_def]
  simp only [if_neg hb]

theorem decodeBinary_hex {h l : Nat} {t : List Nat} {hv lv : Nat}
    (hh : fromHexDigit h = some hv) (hl : fromHexDigit l = some lv) :
    decodeBinary (0x25 :: h :: l :: t) = (16 * hv + lv) :: decodeBinary t := by
  rw [decodeBinary.eq_def]
  simp [hh, hl]

theorem fromHexDigit_hexUpper {d : Nat} (h : d < 16) : fromHexDigit (hexUpper d) = some d := by
  unfold hexUpper fromHexDigit
  split <;> rename_i h10
  · have : 0x30 ≤ 0x30 + d ∧ 0x30 + d ≤ 0x39 := by omega
    simp only [if_pos (by simp [this.1, this.2] : (0x30 ≤ 0x30 + d && 0x30 + d ≤ 0x39) = true)]
    simp
  · have h1 : ¬ (0x30 ≤ 0x41 + (d - 10) && 0x41 + (d - 10) ≤ 0x39) = true := by
      simp; omega
    have h2 : (0x41 ≤ 0x41 + (d - 10) && 0x41 + (d - 10) ≤ 0x46) = true := by
      simp; omega
    simp only [if_neg h1, if_pos h2, Option.some.injEq]
    omega

theorem decodeBinary_encodeByte {b : Nat} (hb : b < 256) (t : List Nat) :
    decodeBinary (encodeByte b ++ t) = b :: decodeBinary t := by
  unfold encodeByte
  split <;> rename_i hu
  · simpa using decodeBinary_cons_ne (unreserved_ne_percent hu)
  · have h1 := fromHexDigit_hexUpper (show b / 16 < 16 by omega)
    have h2 := fromHexDigit_hexUpper (show b % 16 < 16 by omega)
    simp only [List.cons_append, List.nil_append]
    rw [decodeBinary_hex h1 h2]
    congr 1
    omega

theorem decodeBinary_urlencode {s : List Nat} (hs : allBytes s) (t : List Nat) :
    decodeBinary (urlencode s ++ t) = s ++ decodeBinary t := by
  induction s with
  | nil => simp [urlencode]
  | cons b rest ih =>
    have hb : b < 256 := hs b (by simp)
    have hrest : allBytes rest := fun c hc => hs c (by simp [hc])
    simp only [urlencode, List.flatMap_cons, List.append_assoc]
    rw [decodeBinary_encodeByte hb]
    simp only [List.cons_append]
    rw [show (rest.flatMap encodeByte) = urlencode rest from rfl, ih hrest]

theorem urlencodingDecode_urlencode {s : List Nat} (hs : allBytes s)
    (hu : validUtf8 s = true) : urlencodingDecode (urlencode s) = some s := by
  unfold urlencodingDecode
  have : decodeBinary (urlencode s) = s := by
    have := decodeBinary_urlencode hs []
    simpa [decodeBinary] using this
  simp [this, hu]

theorem formDecode_urlencode {s : List Nat} (hs : allBytes s)
    (hu : validUtf8 s = true) : formDecode (urlencode s) = s := by
  unfold formDecode
  have hmap : (urlencode s).map (fun b => if b = 0x2B then 0x20 else b) = urlencode s := by
    have : ∀ c ∈ urlencode s, (if c = 0x2B then 0x20 else c) = c := by
      intro c hc
      exact if_neg (encOutByte_props (mem_urlencode hs hc)).2.2.2.2.2.1
    calc (urlencode s).map (fun b => if b = 0x2B then 0x20 else b)
        = (urlencode s).map id := List.map_congr_left this
      _ = urlencode s := List.map_id _
  rw [hmap]
  have : decodeBinary (urlencode s) = s := by
    have := decodeBinary_urlencode hs []
    simpa [decodeBinary] using this
  rw [this]
  unfold utf8Lossy
  simp [hu]

/-! ## The strict-parse model on URLs built by `build_url_with_params` -/

theorem mem_stripTabNewline {c : Nat} {s : List Nat} (h : c ∈ stripTabNewline s) : c ∈ s :=
  List.mem_of_mem_filter h

theorem stripTabNewline_append (a b : List Nat) :
    stripTabNewline (a ++ b) = stripTabNewline a ++ stripTabNewline b := by
  simp [stripTabNewline, List.filter_append]

theorem stripTabNewline_eq_self {s : List Nat} (h : ∀ c ∈ s, 0x20 < c) :
    stripTabNewline s = s := by
  induction s with
  | nil => rfl
  | cons c rest ih =>
    have hc := h c (by simp)
    have hpred : (!(c = 0x09 || c = 0x0A || c = 0x0D)) = true := by
      simp only [Bool.not_eq_true', Bool.or_eq_false_iff, decide_eq_false_iff_not]
      omega
    simp only [stripTabNewline, List.filter_cons, hpred, if_pos]
    rw [show List.filter _ rest = stripTabNewline rest from rfl,
      ih fun d hd => h d (by simp [hd])]

theorem dropWhile_eq_self_of_head {p : Nat → Bool} {c : Nat} {s : List Nat}
    (h : p c = false) : (c :: s).dropWhile p = c :: s := by
  simp [List.dropWhile_cons, h]

theorem dropWhile_append_mem (p : Nat → Bool) (x y : List Nat) (hy : y ≠ [])
    (hyp : ∀ c ∈ y, p c = false) :
    ∃ x2, (x ++ y).dropWhile p = x2 ++ y ∧ ∀ c ∈ x2, c ∈ x := by
  induction x with
  | nil =>
    refine ⟨[], ?_, by simp⟩
    cases y with
    | nil => exact absurd rfl hy
    | cons c ys =>
      simp only [List.nil_append]
      exact dropWhile_eq_self_of_head (hyp c (by simp))
  | cons b rest ih =>
    by_cases hb : p b = true
    · obtain ⟨x2, he, hm⟩ := ih
      exact ⟨x2, by simp [List.dropWhile_cons, hb, he], fun c hc => by simp [hm c hc]⟩
    · refine ⟨b :: rest, ?_, fun c hc => hc⟩
      simp [List.dropWhile_cons, hb]

theorem trimC0Space_append (x y : List Nat) (hy : y ≠ []) (h : ∀ c ∈ y, 0x20 < c) :
    ∃ x2, trimC0Space (x ++ y) = x2 ++ y ∧ ∀ c ∈ x2, c ∈ x := by
  have hyp : ∀ c ∈ y, (decide (c ≤ 0x20)) = false := by
    intro c hc
    simp only [decide_eq_false_iff_not, not_le]
    exact h c hc
  obtain ⟨x2, he, hm⟩ := dropWhile_append_mem (fun b => decide (b ≤ 0x20)) x y hy hyp
  refine ⟨x2, ?_, hm⟩
  unfold trimC0Space
  rw [he, List.reverse_append]
  obtain ⟨c, ys, hyr⟩ : ∃ c ys, y.reverse = c :: ys := by
    cases hyr : y.reverse with
    | nil => exact absurd (by simpa using congrArg List.reverse hyr) hy
    | cons c ys => exact ⟨c, ys, rfl⟩
  have hcmem : c ∈ y := by
    have : c ∈ y.reverse := by simp [hyr]
    simpa using this
  rw [hyr, List.cons_append, dropWhile_eq_self_of_head (hyp c hcmem)]
  rw [show (c :: (ys ++ x2.reverse)) = (c :: ys) ++ x2.reverse by simp, ← hyr]
  simp

theorem schemeLoop_mem {s r : List Nat} (h : schemeLoop s = some r) : ∀ c ∈ r, c ∈ s := by
  induction s with
  | nil => simp [schemeLoop] at h
  | cons b rest ih =>
    rw [schemeLoop] at h
    split_ifs at h with h1 h2
    · simp only [Option.some.injEq] at h
      subst h
      exact fun c hc => by simp [hc]
    · exact fun c hc => by simp [ih h c hc]

theorem schemeLoop_append {u qs : List Nat} (hq : 0x3F ∉ u) :
    schemeLoop (u ++ 0x3F :: qs) = none ∨
    ∃ u2, (∀ c ∈ u2, c ∈ u) ∧ schemeLoop (u ++ 0x3F :: qs) = some (u2 ++ 0x3F :: qs) := by
  induction u with
  | nil =>
    left
    rw [List.nil_append, schemeLoop]
    norm_num [isSchemeByte, isAsciiAlpha]
  | cons b rest ih =>
    simp only [List.mem_cons, not_or] at hq
    rw [List.cons_append, schemeLoop]
    split_ifs with h1 h2
    · exact Or.inr ⟨rest, fun c hc => by simp [hc], rfl⟩
    · rcases ih hq.2 with h | ⟨u2, hm, he⟩
      · exact Or.inl h
      · exact Or.inr ⟨u2, fun c hc => by simp [hm c hc], he⟩
    · exact Or.inl rfl

theorem urlParseQueryPairs_built {base qs : List Nat} (hq : 0x3F ∉ base) (hf : 0x23 ∉ base)
    (hqs : ∀ c ∈ qs, 0x20 < c ∧ c ≠ 0x23) :
    urlParseQueryPairs (base ++ 0x3F :: qs) = some (formUrlencodedParse qs) ∨
    urlParseQueryPairs (base ++ 0x3F :: qs) = none := by
  have hqs20 : ∀ c ∈ (0x3F :: qs : List Nat), 0x20 < c := by
    intro c hc
    rcases List.mem_cons.mp hc with rfl | hc
    · omega
    · exact (hqs c hc).1
  have hstrip : stripTabNewline (base ++ 0x3F :: qs) = stripTabNewline base ++ 0x3F :: qs := by
    rw [stripTabNewline_append, stripTabNewline_eq_self hqs20]
  obtain ⟨x2, htrim, hx2mem⟩ :=
    trimC0Space_append (stripTabNewline base) (0x3F :: qs) (by simp) hqs20
  have hx2q : 0x3F ∉ x2 := fun hc => hq (mem_stripTabNewline (hx2mem _ hc))
  have hx2f : 0x23 ∉ x2 := fun hc => hf (mem_stripTabNewline (hx2mem _ hc))
  unfold urlParseQueryPairs
  rw [hstrip, htrim]
  cases x2 with
  | nil =>
    right
    rw [List.nil_append, parseSchemeRest]
    norm_num [isAsciiAlpha]
  | cons b u =>
    rw [List.cons_append, parseSchemeRest]
    split_ifs with halpha
    · have hqu : 0x3F ∉ u := fun hc => hx2q (by simp [hc])
      rcases @schemeLoop_append u qs hqu with hnone | ⟨u2, hu2mem, hsome⟩
      · right
        rw [hnone]
      · left
        rw [hsome]
        have h23 : (0x23 : Nat) ∉ u2 ++ 0x3F :: qs := by
          intro hc
          rcases List.mem_append.mp hc with hc | hc
          · exact hx2f (by simp [hu2mem _ hc])
          · rcases List.mem_cons.mp hc with h | hc
            · exact absurd h (by norm_num)
            · exact absurd rfl ((hqs _ hc).2)
        have h3F : (0x3F : Nat) ∉ u2 := fun hc => hx2q (by simp [hu2mem _ hc])
        simp only [extractQuery, beforeFragment, findByte_eq_none h23, findByte_append h3F,
          drop_append_cons]
    · right
      rfl

/-! ## Round-trip of one encoded pair, and of a whole encoded query -/

/-- The `encode(key)=encode(value)` rendering of one pair, as
`build_url_with_params` produces it. -/
def encPair (kv : List Nat × List Nat) : List Nat :=
  urlencode kv.1 ++ 0x3D :: urlencode kv.2

theorem encPair_ne_nil (kv : List Nat × List Nat) : encPair kv ≠ [] := by
  unfold encPair
  simp

theorem mem_encPair {kv : List Nat × List Nat} (hk : allBytes kv.1) (hv : allBytes kv.2)
    {c : Nat} (h : c ∈ encPair kv) : encOutByte c = true ∨ c = 0x3D := by
  unfold encPair at h
  rcases List.mem_append.mp h with h | h
  · exact Or.inl (mem_urlencode hk h)
  · rcases List.mem_cons.mp h with h | h
    · exact Or.inr h
    · exact Or.inl (mem_urlencode hv h)

theorem mem_joinSep {sep : List Nat} {c : Nat} :
    ∀ {parts : List (List Nat)}, c ∈ joinSep sep parts → c ∈ sep ∨ ∃ p ∈ parts, c ∈ p
  | [], h => by simp [joinSep] at h
  | [x], h => by
    simp only [joinSep] at h
    exact Or.inr ⟨x, by simp, h⟩
  | x :: y :: rest, h => by
    simp only [joinSep, List.append_assoc, List.mem_append] at h
    rcases h with h | h | h
    · exact Or.inr ⟨x, by simp, h⟩
    · exact Or.inl h
    · rcases @mem_joinSep sep c (y :: rest) h with h | ⟨p, hp, hc⟩
      · exact Or.inl h
      · exact Or.inr ⟨p, by simp [hp], hc⟩

/-- The decoded pair contributed by one encoded segment on the strict
(`form_urlencoded`) path. -/
theorem formSeg_enc {kv : List Nat × List Nat} (hk : allBytes kv.1) (hv : allBytes kv.2)
    (huk : validUtf8 kv.1 = true) (huv : validUtf8 kv.2 = true) :
    (if encPair kv = [] then []
     else match findByte 0x3D (encPair kv) with
       | some i => [(formDecode ((encPair kv).take i), formDecode ((encPair kv).drop (i + 1)))]
       | none => [(formDecode (encPair kv), [])]) = [kv] := by
  rw [if_neg (encPair_ne_nil kv)]
  have h3D : (0x3D : Nat) ∉ urlencode kv.1 := fun hc =>
    (encOutByte_props (mem_urlencode hk hc)).2.2.1 rfl
  unfold encPair
  simp only [findByte_append h3D, take_append_cons, drop_append_cons,
    formDecode_urlencode hk huk, formDecode_urlencode hv huv]

/-- The decoded pair contributed by one encoded segment on the manual-scan
path. -/
theorem manualPair_enc {kv : List Nat × List Nat} (hne : kv.1 ≠ [])
    (hk : allBytes kv.1) (hv : allBytes kv.2)
    (huk : validUtf8 kv.1 = true) (huv : validUtf8 kv.2 = true) :
    manualPair (encPair kv) = [kv] := by
  unfold manualPair
  rw [if_neg (encPair_ne_nil kv)]
  have h3D : (0x3D : Nat) ∉ urlencode kv.1 := fun hc =>
    (encOutByte_props (mem_urlencode hk hc)).2.2.1 rfl
  unfold encPair
  simp only [findByte_append h3D, take_append_cons, drop_append_cons,
    urlencodingDecode_urlencode hk huk, urlencodingDecode_urlencode hv huv]
  simp [hne]

/-- Hypotheses carried by every pair of the C1 round-trip. -/
def pairOK (kv : List Nat × List Nat) : Prop :=
  allBytes kv.1 ∧ allBytes kv.2 ∧ validUtf8 kv.1 = true ∧ validUtf8 kv.2 = true

theorem splitOnByte_enc {ps : List (List Nat × List Nat)} (hne : ps ≠ [])
    (hp : ∀ kv ∈ ps, pairOK kv) :
    splitOnByte 0x26 (joinSep [0x26] (ps.map encPair)) = ps.map encPair := by
  refine splitOnByte_joinSep (by simp [hne]) ?_
  intro p hpmem hc
  obtain ⟨kv, hkv, rfl⟩ := List.mem_map.mp hpmem
  obtain ⟨hk, hv, _, _⟩ := hp kv hkv
  rcases mem_encPair hk hv hc with h | h
  · exact (encOutByte_props h).2.1 rfl
  · exact absurd h (by norm_num)

theorem formUrlencodedParse_enc {ps : List (List Nat × List Nat)} (hne : ps ≠ [])
    (hp : ∀ kv ∈ ps, pairOK kv) :
    formUrlencodedParse (joinSep [0x26] (ps.map encPair)) = ps := by
  unfold formUrlencodedParse
  rw [splitOnByte_enc hne hp]
  clear hne
  induction ps with
  | nil => rfl
  | cons kv rest ih =>
    obtain ⟨hk, hv, huk, huv⟩ := hp kv (by simp)
    simp only [List.map_cons, List.flatMap_cons]
    rw [formSeg_enc hk hv huk huv, ih fun p hpm => hp p (by simp [hpm])]
    rfl

theorem manualScan_enc {ps : List (List Nat × List Nat)} (hne : ps ≠ [])
    (hkeys : ∀ kv ∈ ps, kv.1 ≠ []) (hp : ∀ kv ∈ ps, pairOK kv) :
    (splitOnByte 0x26 (joinSep [0x26] (ps.map encPair))).flatMap manualPair = ps := by
  rw [splitOnByte_enc hne hp]
  clear hne
  induction ps with
  | nil => rfl
  | cons kv rest ih =>
    obtain ⟨hk, hv, huk, huv⟩ := hp kv (by simp)
    simp only [List.map_cons, List.flatMap_cons]
    rw [manualPair_enc (hkeys kv (by simp)) hk hv huk huv,
      ih (fun p hpm => hkeys p (by simp [hpm])) fun p hpm => hp p (by simp [hpm])]
    rfl

/-! ## `parse_query_params` on URLs with no query at all -/

theorem mem_dropWhile_imp {p : Nat → Bool} {c : Nat} :
    ∀ {s : List Nat}, c ∈ s.dropWhile p → c ∈ s := by
  intro s
  induction s with
  | nil => simp
  | cons b rest ih =>
    rw [List.dropWhile_cons]
    split_ifs
    · exact fun h => by simp [ih h]
    · exact id

theorem mem_trimC0Space {c : Nat} {s : List Nat} (h : c ∈ trimC0Space s) : c ∈ s := by
  unfold trimC0Space at h
  rw [List.mem_reverse] at h
  have h2 := mem_dropWhile_imp h
  rw [List.mem_reverse] at h2
  exact mem_dropWhile_imp h2

theorem parseSchemeRest_mem {t r : List Nat} (h : parseSchemeRest t = some r) :
    ∀ c ∈ r, c ∈ t := by
  cases t with
  | nil => simp [parseSchemeRest] at h
  | cons b rest =>
    rw [parseSchemeRest] at h
    split_ifs at h
    exact fun c hc => by simp [schemeLoop_mem h c hc]

theorem formUrlencodedParse_nil : formUrlencodedParse [] = [] := rfl

theorem parse_query_params_no_question {url : List Nat} (h : 0x3F ∉ url) :
    parse_query_params url = [] := by
  unfold parse_query_params
  split_ifs with hnil
  · rfl
  cases hstrict : urlParseQueryPairs url with
  | none => rw [findByte_eq_none h]
  | some pairs =>
    unfold urlParseQueryPairs at hstrict
    cases hsch : parseSchemeRest (trimC0Space (stripTabNewline url)) with
    | none => rw [hsch] at hstrict; exact absurd hstrict (by simp)
    | some rest =>
      rw [hsch] at hstrict
      simp only [Option.some.injEq] at hstrict
      have hrest : 0x3F ∉ rest := by
        intro hc
        exact h (mem_stripTabNewline (mem_trimC0Space (parseSchemeRest_mem hsch _ hc)))
      have hbf : 0x3F ∉ beforeFragment rest := by
        intro hc
        unfold beforeFragment at hc
        cases h23 : findByte 0x23 rest with
        | none => rw [h23] at hc; exact hrest hc
        | some i =>
          rw [h23] at hc
          exact hrest (List.take_subset i rest hc)
      have : extractQuery rest = [] := by
        unfold extractQuery
        rw [findByte_eq_none hbf]
      rw [this, formUrlencodedParse_nil] at hstrict
      exact hstrict.symm

/-! ## Claim C1 -/

/-- C1 (counterexample): the round-trip law fails as stated.  Both base URLs
end in a letter, so neither has a trailing `?`, and the parameter list is a
single enabled pair with a non-empty key; still the parse of the built URL
does not reproduce the pair: a `?` already inside the base makes the manual
scan read the old query, and a `#` inside the base hides the appended query
behind the fragment. -/
theorem roundtrip_counterexample :
    parse_query_params (build_url_with_params (ascii "a?x=y")
        [⟨ascii "k", ascii "v", true⟩]) ≠ [(ascii "k", ascii "v")] ∧
    parse_query_params (build_url_with_params (ascii "https://e/#f")
        [⟨ascii "k", ascii "v", true⟩]) ≠ [(ascii "k", ascii "v")] := by
  exact ⟨by decide, by decide⟩

/-- C1 (amended): for a base URL that contains no `?` and no `#`, and any
list of enabled params with non-empty keys (whose keys and values are the
bytes of UTF-8 strings, as Rust's `String` guarantees),
`parse_query_params (build_url_with_params base params)` returns exactly the
same (key, value) pairs in the same order, after percent-decoding. -/
theorem roundtrip_amended (base : List Nat) (params : List QueryParam)
    (hq : 0x3F ∉ base) (hf : 0x23 ∉ base)
    (hp : ∀ p ∈ params, p.enabled = true ∧ p.key ≠ [] ∧ allBytes p.key ∧ allBytes p.value ∧
      validUtf8 p.key = true ∧ validUtf8 p.value = true) :
    parse_query_params (build_url_with_params base params) =
      params.map fun p => (p.key, p.value) := by
  have hfilter : params.filter (fun p => p.enabled && !p.key.isEmpty) = params :=
    List.filter_eq_self.mpr fun p hp' => by
      obtain ⟨he, hk, _⟩ := hp p hp'
      simp [he, hk]
  rcases eq_or_ne params [] with rfl | hne
  · simp [build_url_with_params, parse_query_params_no_question hq]
  · have hpsne : params.map (fun p => (p.key, p.value)) ≠ [] := by
      simpa using hne
    have hpOK : ∀ kv ∈ params.map (fun p => (p.key, p.value)), pairOK kv := by
      intro kv hkv
      obtain ⟨p, hpmem, rfl⟩ := List.mem_map.mp hkv
      obtain ⟨_, _, h3, h4, h5, h6⟩ := hp p hpmem
      exact ⟨h3, h4, h5, h6⟩
    have hkeys : ∀ kv ∈ params.map (fun p => (p.key, p.value)), kv.1 ≠ [] := by
      intro kv hkv
      obtain ⟨p, hpmem, rfl⟩ := List.mem_map.mp hkv
      exact (hp p hpmem).2.1
    have hparts : (params.filter (fun p => p.enabled && !p.key.isEmpty)).map
        (fun p => urlencode p.key ++ 0x3D :: urlencode p.value) =
        (params.map (fun p => (p.key, p.value))).map encPair := by
      rw [hfilter, List.map_map]
      rfl
    have hbuild : build_url_with_params base params =
        base ++ 0x3F :: joinSep [0x26] ((params.map (fun p => (p.key, p.value))).map encPair) := by
      unfold build_url_with_params
      rw [hparts]
      have : ((params.map (fun p => (p.key, p.value))).map encPair).isEmpty = false := by
        simpa [List.isEmpty_iff] using hne
      simp [this, hne]
    have hqsOK : ∀ c ∈ joinSep [0x26] ((params.map (fun p => (p.key, p.value))).map encPair),
        0x20 < c ∧ c ≠ 0x23 := by
      intro c hc
      rcases mem_joinSep hc with h | ⟨p, hpm, hcp⟩
      · have : c = 0x26 := by simpa using h
        subst this
        exact ⟨by omega, by omega⟩
      · obtain ⟨kv, hkv, rfl⟩ := List.mem_map.mp hpm
        obtain ⟨hk, hv, _, _⟩ := hpOK kv hkv
        rcases mem_encPair hk hv hcp with h | h
        · have := encOutByte_props h
          exact ⟨this.1, this.2.2.2.2.1⟩
        · subst h
          exact ⟨by omega, by omega⟩
    rw [hbuild]
    have hne2 : base ++ 0x3F :: joinSep [0x26]
        ((params.map (fun p => (p.key, p.value))).map encPair) ≠ [] := by simp
    rcases urlParseQueryPairs_built hq hf hqsOK with hstrict | hstrict
    · unfold parse_query_params
      simp only [if_neg hne2, hstrict]
      exact formUrlencodedParse_enc hpsne hpOK
    · unfold parse_query_params
      simp only [if_neg hne2, hstrict, findByte_append hq, drop_append_cons]
      exact manualScan_enc hpsne hkeys hpOK

/-- C1 (witness for the amended theorem). -/
theorem roundtrip_amended_witness :
    parse_query_params (build_url_with_params (ascii "https://example.com")
      [⟨ascii "foo", ascii "bar", true⟩]) = [(ascii "foo", ascii "bar")] :=
  roundtrip_amended (ascii "https://example.com") [⟨ascii "foo", ascii "bar", true⟩]
    (by decide) (by decide) (by decide)

/-! ## Claim C2 -/

/-- C2 (counterexample): on the manual-scan path, a query segment whose
percent-decoding fails (here `%FF`, which unescapes to a byte sequence that
is not UTF-8) does not fall back to the raw undecoded substring: a failing
value is replaced by the empty string, and a segment whose key fails to
decode is dropped entirely. -/
theorem decode_failure_counterexample :
    parse_query_params (ascii "a?k=%FF") ≠ [(ascii "k", ascii "%FF")] ∧
    parse_query_params (ascii "a?k=%FF") = [(ascii "k", [])] ∧
    parse_query_params (ascii "a?%FF=v") = [] := by
  exact ⟨by decide, by decide, by decide⟩

/-- C2 (amended): on the manual-scan path the parse still never fails as a
whole, but a component whose percent-decoding fails is replaced by the empty
string (`unwrap_or_default`), not by the raw substring: a failing value
yields `(key, "")`, and a segment whose key fails to decode is dropped
(its empty key is filtered out).  An escape that is merely malformed
syntactically (such as `%zz`) does not make decoding fail: it is kept
literally. -/
theorem decode_failure_amended :
    (∀ url i, url ≠ [] → urlParseQueryPairs url = none → findByte 0x3F url = some i →
      parse_query_params url = (splitOnByte 0x26 (url.drop (i + 1))).flatMap manualPair) ∧
    (∀ seg i, findByte 0x3D seg = some i → urlencodingDecode (seg.take i) = none →
      manualPair seg = []) ∧
    (∀ seg i k, findByte 0x3D seg = some i → urlencodingDecode (seg.take i) = some k →
      k ≠ [] → urlencodingDecode (seg.drop (i + 1)) = none → manualPair seg = [(k, [])]) ∧
    (∀ seg, findByte 0x3D seg = none → urlencodingDecode seg = none → manualPair seg = []) ∧
    urlencodingDecode (ascii "%zz") = some (ascii "%zz") := by
  have hne : ∀ (seg : List Nat) i, findByte 0x3D seg = some i → seg ≠ [] := by
    intro seg i h hc
    subst hc
    simp [findByte] at h
  refine ⟨?_, ?_, ?_, ?_, by decide⟩
  · intro url i hu hstrict hfind
    unfold parse_query_params
    simp only [if_neg hu, hstrict, hfind]
  · intro seg i hfind hdec
    unfold manualPair
    simp only [if_neg (hne seg i hfind), hfind, hdec]
    simp
  · intro seg i k hfind hdeck hk hdecv
    unfold manualPair
    simp only [if_neg (hne seg i hfind), hfind, hdeck, hdecv]
    simp [hk]
  · intro seg hfind hdec
    rcases eq_or_ne seg [] with rfl | hsne
    · rfl
    · unfold manualPair
      simp only [if_neg hsne, hfind, hdec]
      simp

/-- C2 (witness for the amended theorem). -/
theorem decode_failure_amended_witness : manualPair (ascii "k=%FF") = [(ascii "k", [])] :=
  decode_failure_amended.2.2.1 (ascii "k=%FF") 1 (ascii "k") (by decide) (by decide)
    (by decide) (by decide)

/-! ## Claim C7 -/

/-- C7 (confirmed): `build_url_with_params` keeps exactly the enabled
parameters with a non-empty key, percent-encodes keys and values (its output
alphabet contains no raw `&`, `=` or space), joins the pairs with `&` behind
a single `?`, returns the base unchanged when nothing survives the filter,
and the special-characters scenario produces the exact URL the spec states. -/
theorem build_url_with_params_spec :
    (build_url_with_params (ascii "https://example.com/api")
        [⟨ascii "name", ascii "hello world", true⟩, ⟨ascii "special", ascii "a&b=c", true⟩] =
      ascii "https://example.com/api?name=hello%20world&special=a%26b%3Dc") ∧
    (build_url_with_params (ascii "https://example.com/api")
        [⟨ascii "a", ascii "b", true⟩, ⟨ascii "c", ascii "d", false⟩] =
      ascii "https://example.com/api?a=b") ∧
    (∀ base params, params.filter (fun p => p.enabled && !p.key.isEmpty) = [] →
      build_url_with_params base params = base) ∧
    (∀ base params, params.filter (fun p => p.enabled && !p.key.isEmpty) ≠ [] →
      build_url_with_params base params =
        base ++ 0x3F :: joinSep [0x26]
          ((params.filter (fun p => p.enabled && !p.key.isEmpty)).map
            (fun p => urlencode p.key ++ 0x3D :: urlencode p.value))) ∧
    (∀ s, allBytes s → ∀ b ∈ urlencode s, b ≠ 0x26 ∧ b ≠ 0x3D ∧ b ≠ 0x20) := by
  refine ⟨by decide, by decide, ?_, ?_, ?_⟩
  · intro base params h
    unfold build_url_with_params
    simp [h]
  · intro base params h
    unfold build_url_with_params
    have : ((params.filter fun p => p.enabled && !p.key.isEmpty).map
        (fun p => urlencode p.key ++ 0x3D :: urlencode p.value)).isEmpty = false := by
      simpa [List.isEmpty_iff] using h
    simp [this]
  · intro s hs b hb
    have h := encOutByte_props (mem_urlencode hs hb)
    exact ⟨h.2.1, h.2.2.1, by omega⟩

/-- C7 (witness). -/
theorem build_url_with_params_spec_witness :
    build_url_with_params (ascii "x") [⟨ascii "c", ascii "d", false⟩] = ascii "x" :=
  build_url_with_params_spec.2.2.1 (ascii "x") [⟨ascii "c", ascii "d", false⟩] (by decide)

/-! ## Claim C8 -/

/-- C8 (confirmed): `params_equal` is equality of the two lists after
discarding the pairs whose key and value are both empty; it is
order-sensitive on what remains, and ignores a trailing placeholder. -/
theorem params_equal_spec :
    (∀ a b, params_equal a b = true ↔
      a.filter (fun kv => !kv.1.isEmpty || !kv.2.isEmpty) =
        b.filter (fun kv => !kv.1.isEmpty || !kv.2.isEmpty)) ∧
    params_equal [(ascii "a", ascii "b"), ([], [])] [(ascii "a", ascii "b")] = true ∧
    params_equal [(ascii "a", ascii "b"), (ascii "c", ascii "d")]
      [(ascii "c", ascii "d"), (ascii "a", ascii "b")] = false := by
  refine ⟨fun a b => ?_, by decide, by decide⟩
  unfold params_equal
  exact beq_iff_eq

/-! ## Claim C10 -/

theorem manualPair_key_ne_nil {seg : List Nat} {kv : List Nat × List Nat}
    (h : kv ∈ manualPair seg) : kv.1 ≠ [] := by
  unfold manualPair at h
  split_ifs at h with h1
  · simp at h
  · revert h
    split
    · intro h
      simp only [ne_eq, ite_not] at h
      split_ifs at h with hk
      · simp at h
      · rw [List.mem_singleton.mp h]
        exact hk
    · intro h
      simp only [ne_eq, ite_not] at h
      split_ifs at h with hk
      · simp at h
      · rw [List.mem_singleton.mp h]
        exact hk

/-- C10 (confirmed): a URL accepted by the strict parser keeps pairs with an
empty key — parsing `https://example.com/?=v` yields the single pair
`("", "v")` — while the manual-scan fallback never returns a pair with an
empty key. -/
theorem empty_key_paths :
    parse_query_params (ascii "https://example.com/?=v") = [([], ascii "v")] ∧
    (∀ url, urlParseQueryPairs url = none →
      ∀ kv ∈ parse_query_params url, kv.1 ≠ []) := by
  refine ⟨by decide, ?_⟩
  intro url hstrict kv hkv
  rcases eq_or_ne url [] with rfl | hu
  · simp [parse_query_params] at hkv
  · unfold parse_query_params at hkv
    simp only [if_neg hu, hstrict] at hkv
    cases hfind : findByte 0x3F url with
    | none =>
      simp only [hfind] at hkv
      simp at hkv
    | some i =>
      simp only [hfind] at hkv
      obtain ⟨seg, _, hmem⟩ := List.mem_flatMap.mp hkv
      exact manualPair_key_ne_nil hmem

/-- C10 (witness). -/
theorem empty_key_paths_witness : ascii "x" ≠ ([] : List Nat) :=
  empty_key_paths.2 (ascii "a?x=y") (by decide) (ascii "x", ascii "y") (by decide)

/-! # `src/code_formatter.rs`

This module works on `&str` at char level, so it is modelled on `List Char`.
`serde_json` is the external collaborator doing the parsing and the pretty
printing; its model below follows the JSON grammar it implements (RFC 8259
with serde_json's extras: rejection of lone surrogates and of control
characters in strings, no trailing commas, only space/tab/LF/CR as
whitespace), with one abstraction: a number is kept as its source lexeme
instead of being read into a u64/i64/f64.  serde_json normalises numeric
text through those binary types (and rejects out-of-range floats); no claim
below depends on numeric normalisation, and the lexeme model keeps every
claim's truth value: formatting is idempotent in both, and validity of a
numeric token agrees in both up to the range check. -/

/-- The double-quote character. -/
def quoteChar : Char := Char.ofNat 0x22

/-- The backslash character. -/
def backslashChar : Char := Char.ofNat 0x5C

/-- The line-feed character. -/
def nlChar : Char := Char.ofNat 0x0A

/-- ASCII digit. -/
def isDigitChar (c : Char) : Bool := 0x30 ≤ c.toNat && c.toNat ≤ 0x39

/-- JSON whitespace (serde_json's `parse_whitespace`): space, tab, LF, CR. -/
def isJsonWs (c : Char) : Bool :=
  c.toNat = 0x20 || c.toNat = 0x09 || c.toNat = 0x0A || c.toNat = 0x0D

/-- Skip JSON whitespace. -/
def skipWs (s : List Char) : List Char := s.dropWhile isJsonWs

/-- Unicode `White_Space`, the set Rust's `str::trim` removes. -/
def rustIsWhitespace (c : Char) : Bool :=
  c.toNat = 0x09 || c.toNat = 0x0A || c.toNat = 0x0B || c.toNat = 0x0C || c.toNat = 0x0D ||
  c.toNat = 0x20 || c.toNat = 0x85 || c.toNat = 0xA0 || c.toNat = 0x1680 ||
  (0x2000 ≤ c.toNat && c.toNat ≤ 0x200A) || c.toNat = 0x2028 || c.toNat = 0x2029 ||
  c.toNat = 0x202F || c.toNat = 0x205F || c.toNat = 0x3000

/-- Rust `str::trim`. -/
def rustTrim (s : List Char) : List Char :=
  ((s.dropWhile rustIsWhitespace).reverse.dropWhile rustIsWhitespace).reverse

/-- The `serde_json::Value` tree, with object member order preserved.
Modelled from the spec: whether `serde_json` preserves object key order is
decided by the crate's `preserve_order` feature flag in the manifest, which
is not under `src/`; the spec states "preserving key order as encountered
(object key order is significant and must be preserved, not sorted)", so the
model uses an ordered association list.  Numbers are kept as lexemes (see
the module comment). -/
inductive Jv where
  | null
  | bool (b : Bool)
  | num (lexeme : List Char)
  | str (s : List Char)
  | arr (elems : List Jv)
  | obj (members : List (List Char × Jv))

/-- Value of one hex digit character (serde accepts both cases). -/
def fromHexDigitChar (c : Char) : Option Nat :=
  if 0x30 ≤ c.toNat && c.toNat ≤ 0x39 then some (c.toNat - 0x30)
  else if 0x41 ≤ c.toNat && c.toNat ≤ 0x46 then some (c.toNat - 0x41 + 10)
  else if 0x61 ≤ c.toNat && c.toNat ≤ 0x66 then some (c.toNat - 0x61 + 10)
  else none

/-- Value of a 4-hex-digit escape. -/
def hex4 (a b c d : Char) : Option Nat := do
  let va ← fromHexDigitChar a
  let vb ← fromHexDigitChar b
  let vc ← fromHexDigitChar c
  let vd ← fromHexDigitChar d
  some (va * 0x1000 + vb * 0x100 + vc * 0x10 + vd)

/-- The char a simple escape stands for (serde_json's escape table). -/
def simpleEscape (e : Char) : Option Char :=
  if e = quoteChar then some quoteChar
  else if e = backslashChar then some backslashChar
  else if e = '/' then some '/'
  else if e = 'b' then some (Char.ofNat 0x08)
  else if e = 'f' then some (Char.ofNat 0x0C)
  else if e = 'n' then some (Char.ofNat 0x0A)
  else if e = 'r' then some (Char.ofNat 0x0D)
  else if e = 't' then some (Char.ofNat 0x09)
  else none

/-- One step of the JSON string-body scan (after the opening quote), as
serde_json's `parse_str` reads it: `some (none, r)` is the closing quote,
`some (some ch, r)` one decoded character — a raw non-control character, a
simple escape, a `\\uXXXX` escape, or a surrogate pair — and `none` an error
(raw control character, bad escape, lone surrogate, or end of input). -/
def strStep : List Char → Option (Option Char × List Char)
  | [] => none
  | c :: r =>
    if c = quoteChar then some (none, r)
    else if c = backslashChar then
      match r with
      | [] => none
      | e :: r2 =>
        if e = 'u' then
          match r2 with
          | a :: b1 :: c1 :: d1 :: r3 =>
            match hex4 a b1 c1 d1 with
            | none => none
            | some v =>
              if 0xD800 ≤ v && v ≤ 0xDBFF then
                match r3 with
                | e2 :: u2 :: a2 :: b2 :: c2 :: d2 :: r4 =>
                  if e2 = backslashChar && u2 = 'u' then
                    match hex4 a2 b2 c2 d2 with
                    | some w =>
                      if 0xDC00 ≤ w && w ≤ 0xDFFF then
                        some (some (Char.ofNat
                          (0x10000 + (v - 0xD800) * 0x400 + (w - 0xDC00))), r4)
                      else none
                    | none => none
                  else none
                | _ => none
              else if 0xDC00 ≤ v && v ≤ 0xDFFF then none
              else some (some (Char.ofNat v), r3)
          | _ => none
        else
          match simpleEscape e with
          | some ch => some (some ch, r2)
          | none => none
    else if c.toNat < 0x20 then none
    else some (some c, r)

/-- The string-body scan as a fuelled loop over `strStep`; every step
consumes at least one character, so `length` fuel never runs out. -/
def parseStrF : Nat → List Char → Option (List Char × List Char)
  | 0, _ => none
  | f + 1, s =>
    match strStep s with
    | none => none
    | some (none, r) => some ([], r)
    | some (some ch, r) => (parseStrF f r).map fun p => (ch :: p.1, p.2)

/-- The scan of a whole JSON string body. -/
def parseStr (s : List Char) : Option (List Char × List Char) := parseStrF s.length s

/-- Integer part of a JSON number, sign already consumed: `0` (not followed
by a digit — serde rejects leading zeros) or a nonzero digit followed by
digits. -/
def lexIntNoSign : List Char → Option (List Char × List Char)
  | [] => none
  | c :: r =>
    if c = '0' then
      match r with
      | d :: _ => if isDigitChar d then none else some (['0'], r)
      | [] => some (['0'], [])
    else if isDigitChar c then
      some (c :: r.takeWhile isDigitChar, r.dropWhile isDigitChar)
    else none

/-- Integer part with optional leading minus. -/
def lexInt : List Char → Option (List Char × List Char)
  | [] => none
  | c :: r =>
    if c = '-' then (lexIntNoSign r).map fun p => ('-' :: p.1, p.2)
    else lexIntNoSign (c :: r)

/-- Optional fraction part: `.` followed by at least one digit. -/
def lexFrac : List Char → Option (List Char × List Char)
  | [] => some ([], [])
  | c :: r =>
    if c = '.' then
      match r with
      | d :: _ =>
        if isDigitChar d then some ('.' :: r.takeWhile isDigitChar, r.dropWhile isDigitChar)
        else none
      | [] => none
    else some ([], c :: r)

/-- Optional exponent part: `e` or `E`, an optional sign, at least one
digit. -/
def lexExp : List Char → Option (List Char × List Char)
  | [] => some ([], [])
  | c :: r =>
    if c = 'e' || c = 'E' then
      match r with
      | s1 :: r2 =>
        if s1 = '+' || s1 = '-' then
          match r2 with
          | d :: _ =>
            if isDigitChar d then
              some (c :: s1 :: r2.takeWhile isDigitChar, r2.dropWhile isDigitChar)
            else none
          | [] => none
        else if isDigitChar s1 then
          some (c :: r.takeWhile isDigitChar, r.dropWhile isDigitChar)
        else none
      | [] => none
    else some ([], c :: r)

/-- The lexeme of a JSON number and the remaining input. -/
def numLex (s : List Char) : Option (List Char × List Char) := do
  let (i, r1) ← lexInt s
  let (fr, r2) ← lexFrac r1
  let (e, r3) ← lexExp r2
  some (i ++ fr ++ e, r3)

mutual

/-- One JSON value, by recursive descent with explicit fuel (serde_json's
`parse_value`): skip whitespace, then dispatch on the first character. -/
def parseJv : Nat → List Char → Option (Jv × List Char)
  | 0, _ => none
  | f + 1, s =>
    match skipWs s with
    | [] => none
    | c :: r =>
      if c = 'n' then
        match r with
        | 'u' :: 'l' :: 'l' :: r2 => some (.null, r2)
        | _ => none
      else if c = 't' then
        match r with
        | 'r' :: 'u' :: 'e' :: r2 => some (.bool true, r2)
        | _ => none
      else if c = 'f' then
        match r with
        | 'a' :: 'l' :: 's' :: 'e' :: r2 => some (.bool false, r2)
        | _ => none
      else if c = quoteChar then (parseStr r).map fun p => (.str p.1, p.2)
      else if c = '-' || isDigitChar c then (numLex (c :: r)).map fun p => (.num p.1, p.2)
      else if c = '[' then
        match skipWs r with
        | [] => none
        | c2 :: r2 =>
          if c2 = ']' then some (.arr [], r2)
          else (parseElems f (c2 :: r2)).map fun p => (.arr p.1, p.2)
      else if c = '{' then
        match skipWs r with
        | [] => none
        | c2 :: r2 =>
          if c2 = '}' then some (.obj [], r2)
          else (parseMembers f (c2 :: r2)).map fun p => (.obj p.1, p.2)
      else none

/-- The elements of a non-empty array, positioned at the first element:
value, then `,` and more elements or the closing `]`. -/
def parseElems : Nat → List Char → Option (List Jv × List Char)
  | 0, _ => none
  | f + 1, s => do
    let (v, r) ← parseJv f s
    match skipWs r with
    | c :: r2 =>
      if c = ',' then do
        let (vs, r3) ← parseElems f r2
        some (v :: vs, r3)
      else if c = ']' then some ([v], r2)
      else none
    | [] => none

/-- The members of a non-empty object, positioned at the first key (serde
requires a string key): key, `:`, value, then `,` and more members or the
closing brace. -/
def parseMembers : Nat → List Char → Option (List (List Char × Jv) × List Char)
  | 0, _ => none
  | f + 1, s =>
    match s with
    | [] => none
    | c :: r =>
      if c = quoteChar then do
        let (k, r1) ← parseStr r
        match skipWs r1 with
        | c2 :: r2 =>
          if c2 = ':' then do
            let (v, r3) ← parseJv f r2
            match skipWs r3 with
            | c3 :: r4 =>
              if c3 = ',' then do
                let (ms, r5) ← parseMembers f (skipWs r4)
                some ((k, v) :: ms, r5)
              else if c3 = '}' then some ([(k, v)], r4)
              else none
            | [] => none
          else none
        | [] => none
      else none

end

/-- `serde_json::from_str::<Value>`: a complete value with only whitespace
around it.  The fuel `length + 1` is enough because every recursion step
first consumes at least one character. -/
def parseDoc (s : List Char) : Option Jv :=
  match parseJv (s.length + 1) s with
  | some (v, r) => if skipWs r = [] then some v else none
  | none => none

/-- serde_json's string escaping: quote and backslash escaped, the five
short control escapes, other control characters as `\\u00xx` with lower-case
hex, everything else written raw. -/
def escapeChar (c : Char) : List Char :=
  if c = quoteChar then [backslashChar, quoteChar]
  else if c = backslashChar then [backslashChar, backslashChar]
  else if c.toNat = 0x08 then [backslashChar, 'b']
  else if c.toNat = 0x09 then [backslashChar, 't']
  else if c.toNat = 0x0A then [backslashChar, 'n']
  else if c.toNat = 0x0C then [backslashChar, 'f']
  else if c.toNat = 0x0D then [backslashChar, 'r']
  else if c.toNat < 0x20 then
    [backslashChar, 'u', '0', '0',
      if c.toNat / 16 < 10 then Char.ofNat (0x30 + c.toNat / 16)
        else Char.ofNat (0x61 + (c.toNat / 16 - 10)),
      if c.toNat % 16 < 10 then Char.ofNat (0x30 + c.toNat % 16)
        else Char.ofNat (0x61 + (c.toNat % 16 - 10))]
  else [c]

/-- A JSON string literal, quotes included. -/
def printStr (s : List Char) : List Char :=
  quoteChar :: s.flatMap escapeChar ++ [quoteChar]

/-- The indentation for nesting depth `d` (serde's `PrettyFormatter` with
its default two-space unit). -/
def ind (d : Nat) : List Char := List.replicate (2 * d) ' '

/-- `serde_json::to_string_pretty` at nesting depth `d`: empty containers
print as two adjacent brackets; non-empty ones put every element on its own
indented line and close on a fresh line at the parent depth. -/
def prettyAux : Nat → Jv → List Char
  | _, .null => ['n', 'u', 'l', 'l']
  | _, .bool true => ['t', 'r', 'u', 'e']
  | _, .bool false => ['f', 'a', 'l', 's', 'e']
  | _, .num l => l
  | _, .str s => printStr s
  | _, .arr [] => ['[', ']']
  | d, .arr (x :: rest) =>
    '[' :: nlChar :: (ind (d + 1) ++ prettyAux (d + 1) x ++ prettyElemsAux d rest)
  | _, .obj [] => ['{', '}']
  | d, .obj (m :: rest) =>
    '{' :: nlChar ::
      (ind (d + 1) ++ printStr m.1 ++ ':' :: ' ' :: prettyAux (d + 1) m.2 ++
        prettyMembersAux d rest)
where
  /-- What follows the first element of a non-empty array. -/
  prettyElemsAux : Nat → List Jv → List Char
    | d, [] => nlChar :: (ind d ++ [']'])
    | d, y :: rest =>
      ',' :: nlChar :: (ind (d + 1) ++ prettyAux (d + 1) y ++ prettyElemsAux d rest)
  /-- What follows the first member of a non-empty object. -/
  prettyMembersAux : Nat → List (List Char × Jv) → List Char
    | d, [] => nlChar :: (ind d ++ ['}'])
    | d, m :: rest =>
      ',' :: nlChar ::
        (ind (d + 1) ++ printStr m.1 ++ ':' :: ' ' :: prettyAux (d + 1) m.2 ++
          prettyMembersAux d rest)

/-- The error cases of `format_json`/`validate_json`.  The Rust functions
return `String` messages: `"Empty input"` for the empty check, and a message
wrapping the serde parse error, prefixed `"JSON parse error: "` in
`format_json` and `"Invalid JSON: "` in `validate_json`; the model keeps the
case distinction and abstracts the serde message text. -/
inductive JsonError where
  | emptyInput
  | parseError
  | invalidJson
deriving DecidableEq

/-- `format_json`: empty or whitespace-only input is the `"Empty input"`
error; otherwise parse, and pretty-print on success.  (In the Rust code the
final `serde_json::to_string_pretty` also returns a `Result`, but
serialising a `serde_json::Value` cannot fail, so the model keeps it
total.) -/
def format_json (input : List Char) : Except JsonError (List Char) :=
  if (rustTrim input).isEmpty then .error .emptyInput
  else
    match parseDoc input with
    | some v => .ok (prettyAux 0 v)
    | none => .error .parseError

/-- `validate_json`: empty or whitespace-only input is valid; otherwise any
parse error is surfaced. -/
def validate_json (input : List Char) : Except JsonError Unit :=
  if (rustTrim input).isEmpty then .ok ()
  else
    match parseDoc input with
    | some _ => .ok ()
    | none => .error .invalidJson

/-! ## Character and whitespace helpers -/

theorem charToNat_ofNat {n : Nat} (h : n < 0xD800) : (Char.ofNat n).toNat = n := by
  have hv : n.isValidChar := Or.inl h
  simp only [Char.ofNat, hv, dif_pos]
  simp only [Char.ofNatAux, Char.toNat]
  simp [UInt32.toNat, BitVec.toNat_ofNatLt]

theorem char_ne_of_toNat {c d : Char} (h : c.toNat ≠ d.toNat) : c ≠ d :=
  fun he => h (he ▸ rfl)

theorem char_eq_ofNat_of_toNat {c : Char} {n : Nat} (h : c.toNat = n) : c = Char.ofNat n := by
  subst h
  exact (Char.ofNat_toNat c).symm

theorem skipWs_cons_of {c : Char} (h : isJsonWs c = false) (t : List Char) :
    skipWs (c :: t) = c :: t := by
  simp [skipWs, List.dropWhile_cons, h]

theorem skipWs_cons_ws {c : Char} (h : isJsonWs c = true) (t : List Char) :
    skipWs (c :: t) = skipWs t := by
  simp [skipWs, List.dropWhile_cons, h]

theorem skipWs_ind (k : Nat) (t : List Char) : skipWs (ind k ++ t) = skipWs t := by
  unfold ind
  induction 2 * k with
  | zero => simp
  | succ n ihn =>
    rw [List.replicate_succ, List.cons_append, skipWs_cons_ws (by decide)]
    exact ihn

theorem skipWs_nl_ind (k : Nat) (t : List Char) :
    skipWs (nlChar :: (ind k ++ t)) = skipWs t := by
  rw [skipWs_cons_ws (by decide), skipWs_ind]

theorem parseJv_congr_ws {s1 s2 : List Char} (h : skipWs s1 = skipWs s2) (f : Nat) :
    parseJv f s1 = parseJv f s2 := by
  cases f with
  | zero => rfl
  | succ f => rw [parseJv, parseJv, h]

theorem parseElems_congr_ws {s1 s2 : List Char} (h : skipWs s1 = skipWs s2) (f : Nat) :
    parseElems f s1 = parseElems f s2 := by
  cases f with
  | zero => rfl
  | succ f =>
    rw [parseElems, parseElems, parseJv_congr_ws h]

/-- The first character after some text, constrained; `[]` is fine. -/
def headNot (p : Char → Bool) : List Char → Prop
  | [] => True
  | c :: _ => p c = false

/-- The first character is not `a`; `[]` is fine. -/
def headNe (a : Char) : List Char → Prop
  | [] => True
  | c :: _ => c ≠ a

theorem span_glue {p : Char → Bool} {ds X : List Char} (hd : ∀ c ∈ ds, p c = true)
    (hX : headNot p X) : (ds ++ X).takeWhile p = ds ∧ (ds ++ X).dropWhile p = X := by
  induction ds with
  | nil =>
    cases X with
    | nil => simp
    | cons c t =>
      simp only [headNot] at hX
      simp [List.takeWhile_cons, List.dropWhile_cons, hX]
  | cons c ds ih =>
    have hc : p c = true := hd c (by simp)
    obtain ⟨h1, h2⟩ := ih fun a ha => hd a (by simp [ha])
    simp [List.takeWhile_cons, List.dropWhile_cons, hc, h1, h2]

/-! ## The JSON number grammar -/

/-- Shape of the unsigned integer part: `0` alone, or a nonzero digit
followed by digits. -/
def intNoSignOKb : List Char → Bool
  | [] => false
  | c :: r => if c = '0' then r.isEmpty else isDigitChar c && r.all isDigitChar

/-- Shape of the integer part, optional minus sign included. -/
def intOKb : List Char → Bool
  | [] => false
  | c :: r => if c = '-' then intNoSignOKb r else intNoSignOKb (c :: r)

/-- Shape of the (possibly absent) fraction part. -/
def fracOKb : List Char → Bool
  | [] => true
  | c :: r => c = '.' && !r.isEmpty && r.all isDigitChar

/-- Shape of what follows the exponent letter. -/
def expRestOKb : List Char → Bool
  | [] => false
  | c :: r =>
    if c = '+' || c = '-' then !r.isEmpty && r.all isDigitChar
    else isDigitChar c && r.all isDigitChar

/-- Shape of the (possibly absent) exponent part. -/
def expOKb : List Char → Bool
  | [] => true
  | c :: r => (c = 'e' || c = 'E') && expRestOKb r

/-- A well-formed number lexeme: integer part, optional fraction, optional
exponent. -/
def numOK (l : List Char) : Prop :=
  ∃ i fr e, l = i ++ fr ++ e ∧ intOKb i = true ∧ fracOKb fr = true ∧ expOKb e = true

theorem lexIntNoSign_glue {i X : List Char} (h : intNoSignOKb i = true)
    (hX : headNot isDigitChar X) : lexIntNoSign (i ++ X) = some (i, X) := by
  cases i with
  | nil => simp [intNoSignOKb] at h
  | cons c r =>
    rw [intNoSignOKb] at h
    split_ifs at h with h0
    · subst h0
      have : r = [] := by simpa [List.isEmpty_iff] using h
      subst this
      cases X with
      | nil => rfl
      | cons d t =>
        simp only [headNot] at hX
        rw [lexIntNoSign.eq_def]
        simp [hX]
    · simp only [Bool.and_eq_true] at h
      rw [List.cons_append, lexIntNoSign.eq_def]
      simp only [if_neg h0, if_pos h.1]
      obtain ⟨h1, h2⟩ := span_glue (fun a ha => by
        have := h.2
        rw [List.all_eq_true] at this
        exact this a ha) hX
      rw [h1, h2]

theorem lexInt_glue {i X : List Char} (h : intOKb i = true)
    (hX : headNot isDigitChar X) : lexInt (i ++ X) = some (i, X) := by
  cases i with
  | nil => simp [intOKb] at h
  | cons c r =>
    rw [intOKb] at h
    split_ifs at h with hminus
    · subst hminus
      rw [List.cons_append, lexInt, if_pos rfl, lexIntNoSign_glue h hX]
      rfl
    · have hne : ¬ ((c :: r) ++ X = []) := by simp
      rw [List.cons_append, lexInt, if_neg hminus, ← List.cons_append,
        lexIntNoSign_glue h hX]

theorem lexFrac_glue {fr X : List Char} (h : fracOKb fr = true)
    (hX : headNot isDigitChar X) (hdot : fr = [] → headNe '.' X) :
    lexFrac (fr ++ X) = some (fr, X) := by
  cases fr with
  | nil =>
    cases X with
    | nil => rfl
    | cons c t =>
      have := hdot rfl
      simp only [headNe] at this
      rw [lexFrac.eq_def]
      simp [this]
  | cons c r =>
    rw [fracOKb] at h
    simp only [Bool.and_eq_true, decide_eq_true_eq] at h
    obtain ⟨⟨hc, hrne⟩, hall⟩ := h
    subst hc
    obtain ⟨d, ds, rfl⟩ : ∃ d ds, r = d :: ds := by
      cases r with
      | nil => simp at hrne
      | cons d ds => exact ⟨d, ds, rfl⟩
    have hd : isDigitChar d = true := by
      rw [List.all_eq_true] at hall
      exact hall d (by simp)
    rw [List.cons_append, lexFrac.eq_def]
    simp only [List.cons_append, if_pos hd]
    obtain ⟨h1, h2⟩ := @span_glue isDigitChar (d :: ds) _ (fun a ha => by
      rw [List.all_eq_true] at hall
      exact hall a ha) hX
    simp only [List.cons_append] at h1 h2
    rw [h1, h2]
    simp

theorem lexExp_glue {e X : List Char} (h : expOKb e = true)
    (hX : headNot isDigitChar X) (hexp : e = [] → headNe 'e' X ∧ headNe 'E' X) :
    lexExp (e ++ X) = some (e, X) := by
  cases e with
  | nil =>
    cases X with
    | nil => rfl
    | cons c t =>
      obtain ⟨h1, h2⟩ := hexp rfl
      simp only [headNe] at h1 h2
      have : (c = 'e' || c = 'E') = false := by simp [h1, h2]
      rw [lexExp.eq_def]
      simp [this]
  | cons c r =>
    rw [expOKb] at h
    simp only [Bool.and_eq_true] at h
    obtain ⟨hc, hr⟩ := h
    rw [List.cons_append, lexExp.eq_def]
    simp only [hc, if_true, Bool.true_eq_false]
    cases r with
    | nil => simp [expRestOKb] at hr
    | cons s1 r2 =>
      rw [expRestOKb] at hr
      split_ifs at hr with hsign
      · simp only [Bool.and_eq_true] at hr
        obtain ⟨hr2ne, hall⟩ := hr
        obtain ⟨d, ds, rfl⟩ : ∃ d ds, r2 = d :: ds := by
          cases r2 with
          | nil => simp at hr2ne
          | cons d ds => exact ⟨d, ds, rfl⟩
        have hd : isDigitChar d = true := by
          rw [List.all_eq_true] at hall
          exact hall d (by simp)
        simp only [List.cons_append, if_pos hsign, if_pos hd]
        obtain ⟨h1, h2⟩ := @span_glue isDigitChar (d :: ds) _ (fun a ha => by
          rw [List.all_eq_true] at hall
          exact hall a ha) hX
        simp only [List.cons_append] at h1 h2
        rw [h1, h2]
      · simp only [Bool.and_eq_true] at hr
        obtain ⟨hs1, hall⟩ := hr
        simp only [List.cons_append, if_neg hsign, if_pos hs1]
        obtain ⟨h1, h2⟩ := @span_glue isDigitChar (s1 :: r2) _ (fun a ha => by
          rcases List.mem_cons.mp ha with rfl | ha
          · exact hs1
          · rw [List.all_eq_true] at hall
            exact hall a ha) hX
        simp only [List.cons_append] at h1 h2
        rw [h1, h2]

/-- What may legally follow a number lexeme without being absorbed into
it. -/
def numBoundary : List Char → Prop
  | [] => True
  | c :: _ => isDigitChar c = false ∧ c ≠ '.' ∧ c ≠ 'e' ∧ c ≠ 'E'

theorem numLex_glue {l X : List Char} (h : numOK l) (hX : numBoundary X) :
    numLex (l ++ X) = some (l, X) := by
  obtain ⟨i, fr, e, rfl, hi, hfr, he⟩ := h
  have hXdig : headNot isDigitChar X := by
    cases X with
    | nil => trivial
    | cons c t => exact hX.1
  have hXe : headNe 'e' X ∧ headNe 'E' X := by
    cases X with
    | nil => exact ⟨trivial, trivial⟩
    | cons c t => exact ⟨hX.2.2.1, hX.2.2.2⟩
  have hXdot : headNe '.' X := by
    cases X with
    | nil => trivial
    | cons c t => exact hX.2.1
  have heDig : headNot isDigitChar (e ++ X) := by
    cases e with
    | nil => exact hXdig
    | cons c r =>
      rw [expOKb] at he
      simp only [Bool.and_eq_true, Bool.or_eq_true, decide_eq_true_eq] at he
      rcases he.1 with rfl | rfl <;> simp [headNot, isDigitChar]
  have hfrDig : headNot isDigitChar (fr ++ (e ++ X)) := by
    cases fr with
    | nil => exact heDig
    | cons c r =>
      rw [fracOKb] at hfr
      simp only [Bool.and_eq_true, decide_eq_true_eq] at hfr
      obtain ⟨⟨rfl, _⟩, _⟩ := hfr
      simp [headNot, isDigitChar]
  have hdot : fr = [] → headNe '.' (e ++ X) := by
    intro hfre
    cases e with
    | nil => exact hXdot
    | cons c r =>
      rw [expOKb] at he
      simp only [Bool.and_eq_true, Bool.or_eq_true, decide_eq_true_eq] at he
      rcases he.1 with rfl | rfl <;> simp [headNe]
  unfold numLex
  rw [List.append_assoc, List.append_assoc, lexInt_glue hi hfrDig]
  simp only [Option.bind_eq_bind, Option.some_bind]
  rw [lexFrac_glue hfr heDig hdot]
  simp only [Option.some_bind]
  rw [lexExp_glue he hXdig (fun _ => hXe)]
  rfl

theorem all_takeWhile {p : Char → Bool} : ∀ (l : List Char), ∀ c ∈ l.takeWhile p, p c = true
  | [], c, hc => by simp at hc
  | a :: t, c, hc => by
    rw [List.takeWhile_cons] at hc
    by_cases ha : p a = true
    · rw [if_pos ha] at hc
      rcases List.mem_cons.mp hc with rfl | hc
      · exact ha
      · exact all_takeWhile t c hc
    · rw [if_neg ha] at hc
      simp at hc

theorem lexIntNoSign_sound {s i r : List Char} (h : lexIntNoSign s = some (i, r)) :
    intNoSignOKb i = true := by
  cases s with
  | nil => simp [lexIntNoSign] at h
  | cons c t =>
    rw [lexIntNoSign.eq_def] at h
    simp only [] at h
    split_ifs at h with h0 hd
    · subst h0
      cases t with
      | nil =>
        simp only [Option.some.injEq, Prod.mk.injEq] at h
        rw [← h.1]
        rfl
      | cons d tail =>
        simp only [] at h
        split_ifs at h with hd2
        simp only [Option.some.injEq, Prod.mk.injEq] at h
        rw [← h.1]
        rfl
    · simp only [Option.some.injEq, Prod.mk.injEq] at h
      rw [← h.1, intNoSignOKb]
      have hc0 : ¬ c = '0' := h0
      rw [if_neg hc0]
      simp only [Bool.and_eq_true]
      refine ⟨hd, ?_⟩
      rw [List.all_eq_true]
      exact all_takeWhile t

theorem lexInt_sound {s i r : List Char} (h : lexInt s = some (i, r)) : intOKb i = true := by
  cases s with
  | nil => simp [lexInt] at h
  | cons c t =>
    rw [lexInt] at h
    split_ifs at h with hminus
    · subst hminus
      cases hns : lexIntNoSign t with
      | none => rw [hns] at h; simp at h
      | some p =>
        obtain ⟨iq, rq⟩ := p
        rw [hns] at h
        simp only [Option.map_some', Option.some.injEq, Prod.mk.injEq] at h
        rw [← h.1, intOKb, if_pos rfl]
        exact lexIntNoSign_sound hns
    · have := lexIntNoSign_sound h
      rw [intOKb.eq_def]
      cases i with
      | nil => simp [intNoSignOKb] at this
      | cons ci ri =>
        have hci : ¬ ci = '-' := by
          intro hc
          subst hc
          rw [intNoSignOKb] at this
          split_ifs at this with hdig
          · exact absurd hdig (by decide)
          · simp only [Bool.and_eq_true] at this
            exact absurd this.1 (by decide)
        simp only [if_neg hci]
        exact this

theorem lexFrac_sound {s fr r : List Char} (h : lexFrac s = some (fr, r)) :
    fracOKb fr = true := by
  cases s with
  | nil =>
    simp only [lexFrac, Option.some.injEq, Prod.mk.injEq] at h
    rw [← h.1]
    rfl
  | cons c t =>
    rw [lexFrac.eq_def] at h
    simp only [] at h
    split_ifs at h with hdot
    · subst hdot
      cases t with
      | nil => exact absurd h (by simp)
      | cons d tail =>
        simp only [] at h
        split_ifs at h with hd
        simp only [Option.some.injEq, Prod.mk.injEq] at h
        rw [← h.1, fracOKb]
        simp only [Bool.and_eq_true, decide_eq_true_eq]
        refine ⟨⟨trivial, ?_⟩, ?_⟩
        · simp [List.takeWhile_cons, hd]
        · rw [List.all_eq_true]
          exact all_takeWhile (d :: tail)
    · simp only [Option.some.injEq, Prod.mk.injEq] at h
      rw [← h.1]
      rfl

theorem lexExp_sound {s e r : List Char} (h : lexExp s = some (e, r)) : expOKb e = true := by
  cases s with
  | nil =>
    simp only [lexExp, Option.some.injEq, Prod.mk.injEq] at h
    rw [← h.1]
    rfl
  | cons c t =>
    rw [lexExp.eq_def] at h
    simp only [] at h
    split_ifs at h with hce
    · cases t with
      | nil => exact absurd h (by simp)
      | cons s1 r2 =>
        simp only [] at h
        split_ifs at h with hsign hd
        · cases r2 with
          | nil => exact absurd h (by simp)
          | cons d t3 =>
            simp only [] at h
            split_ifs at h with hd3
            simp only [Option.some.injEq, Prod.mk.injEq] at h
            rw [← h.1, expOKb]
            simp only [Bool.and_eq_true]
            refine ⟨hce, ?_⟩
            rw [expRestOKb.eq_def]
            simp only []
            rw [if_pos hsign]
            simp only [Bool.and_eq_true]
            constructor
            · simp [List.takeWhile_cons, hd3]
            · rw [List.all_eq_true]
              exact all_takeWhile (d :: t3)
        · simp only [Option.some.injEq, Prod.mk.injEq] at h
          rw [← h.1, expOKb]
          simp only [Bool.and_eq_true]
          refine ⟨hce, ?_⟩
          rw [List.takeWhile_cons, if_pos hd]
          rw [expRestOKb.eq_def]
          simp only []
          rw [if_neg hsign]
          simp only [Bool.and_eq_true]
          refine ⟨hd, ?_⟩
          rw [List.all_eq_true]
          exact all_takeWhile r2
    · simp only [Option.some.injEq, Prod.mk.injEq] at h
      rw [← h.1]
      rfl

theorem numLex_sound {s l r : List Char} (h : numLex s = some (l, r)) : numOK l := by
  unfold numLex at h
  simp only [Option.bind_eq_bind] at h
  cases hi : lexInt s with
  | none => rw [hi] at h; simp at h
  | some pi =>
    rw [hi] at h
    simp only [Option.some_bind] at h
    cases hf : lexFrac pi.2 with
    | none => rw [hf] at h; simp at h
    | some pf =>
      rw [hf] at h
      simp only [Option.some_bind] at h
      cases he : lexExp pf.2 with
      | none => rw [he] at h; simp at h
      | some pe =>
        rw [he] at h
        simp only [Option.some_bind, Option.some.injEq, Prod.mk.injEq] at h
        refine ⟨pi.1, pf.1, pe.1, h.1.symm, ?_, ?_, ?_⟩
        · exact lexInt_sound (by rw [hi])
        · exact lexFrac_sound (by rw [hf])
        · exact lexExp_sound (by rw [he])

/-! ## The string escaper inverts into the string scanner -/

theorem fromHexDigitChar_emit {k : Nat} (h : k < 16) :
    fromHexDigitChar
      (if k < 10 then Char.ofNat (0x30 + k) else Char.ofNat (0x61 + (k - 10))) = some k := by
  split_ifs with h10
  · have ht : (Char.ofNat (0x30 + k)).toNat = 0x30 + k := charToNat_ofNat (by omega)
    unfold fromHexDigitChar
    rw [ht]
    have c1 : (0x30 ≤ 0x30 + k && 0x30 + k ≤ 0x39) = true := by
      simp only [Bool.and_eq_true, decide_eq_true_eq]
      omega
    rw [if_pos c1]
    simp
  · have ht : (Char.ofNat (0x61 + (k - 10))).toNat = 0x61 + (k - 10) :=
      charToNat_ofNat (by omega)
    unfold fromHexDigitChar
    rw [ht]
    have c1 : ¬ ((0x30 ≤ 0x61 + (k - 10) && 0x61 + (k - 10) ≤ 0x39) = true) := by
      simp only [Bool.and_eq_true, decide_eq_true_eq, not_and]
      omega
    have c2 : ¬ ((0x41 ≤ 0x61 + (k - 10) && 0x61 + (k - 10) ≤ 0x46) = true) := by
      simp only [Bool.and_eq_true, decide_eq_true_eq, not_and]
      omega
    have c3 : (0x61 ≤ 0x61 + (k - 10) && 0x61 + (k - 10) ≤ 0x66) = true := by
      simp only [Bool.and_eq_true, decide_eq_true_eq]
      omega
    rw [if_neg c1, if_neg c2, if_pos c3]
    simp only [Option.some.injEq]
    omega

theorem hex4_eval {a b c d : Char} {va vb vc vd : Nat}
    (ha : fromHexDigitChar a = some va) (hb : fromHexDigitChar b = some vb)
    (hc : fromHexDigitChar c = some vc) (hd : fromHexDigitChar d = some vd) :
    hex4 a b c d = some (va * 0x1000 + vb * 0x100 + vc * 0x10 + vd) := by
  unfold hex4
  rw [ha, hb, hc, hd]
  rfl

theorem strStep_simple_escape {e ch : Char} (he : simpleEscape e = some ch) (hu : e ≠ 'u')
    (X : List Char) : strStep (backslashChar :: e :: X) = some (some ch, X) := by
  rw [strStep.eq_def]
  simp only []
  rw [if_neg (by decide : ¬ (backslashChar = quoteChar))]
  simp only [if_true]
  rw [if_neg hu, he]

theorem strStep_raw {c : Char} (hq : ¬ c = quoteChar) (hb : ¬ c = backslashChar)
    (hc : ¬ c.toNat < 0x20) (X : List Char) : strStep (c :: X) = some (some c, X) := by
  rw [strStep.eq_def]
  simp only []
  rw [if_neg hq, if_neg hb, if_neg hc]

theorem strStep_hex {c : Char} (hq : ¬ c = quoteChar) (hb : ¬ c = backslashChar)
    (hctl : c.toNat < 0x20) (h8 : ¬ c.toNat = 0x08) (h9 : ¬ c.toNat = 0x09)
    (h10 : ¬ c.toNat = 0x0A) (h12 : ¬ c.toNat = 0x0C) (h13 : ¬ c.toNat = 0x0D)
    (X : List Char) : strStep (escapeChar c ++ X) = some (some c, X) := by
  have hesc : escapeChar c = [backslashChar, 'u', '0', '0',
      (if c.toNat / 16 < 10 then Char.ofNat (0x30 + c.toNat / 16)
        else Char.ofNat (0x61 + (c.toNat / 16 - 10))),
      (if c.toNat % 16 < 10 then Char.ofNat (0x30 + c.toNat % 16)
        else Char.ofNat (0x61 + (c.toNat % 16 - 10)))] := by
    unfold escapeChar
    rw [if_neg hq, if_neg hb, if_neg h8, if_neg h9, if_neg h10, if_neg h12, if_neg h13,
      if_pos hctl]
  have hh1 := fromHexDigitChar_emit (k := c.toNat / 16) (by omega)
  have hh2 := fromHexDigitChar_emit (k := c.toNat % 16) (by omega)
  rw [hesc]
  simp only [List.cons_append, List.nil_append]
  rw [strStep.eq_def]
  simp only []
  rw [if_neg (by decide : ¬ (backslashChar = quoteChar))]
  simp only [if_true]
  rw [hex4_eval (show fromHexDigitChar '0' = some 0 by decide)
    (show fromHexDigitChar '0' = some 0 by decide) hh1 hh2]
  simp only []
  have hv : 0 * 0x1000 + 0 * 0x100 + c.toNat / 16 * 0x10 + c.toNat % 16 = c.toNat := by omega
  rw [hv]
  have cs1 : ¬ ((0xD800 ≤ c.toNat && c.toNat ≤ 0xDBFF) = true) := by
    simp only [Bool.and_eq_true, decide_eq_true_eq, not_and]
    omega
  have cs2 : ¬ ((0xDC00 ≤ c.toNat && c.toNat ≤ 0xDFFF) = true) := by
    simp only [Bool.and_eq_true, decide_eq_true_eq, not_and]
    omega
  rw [if_neg cs1, if_neg cs2, Char.ofNat_toNat]

/-- The escape of one character is consumed in one scanner step. -/
theorem strStep_escapeChar (c : Char) (X : List Char) :
    strStep (escapeChar c ++ X) = some (some c, X) := by
  by_cases hq : c = quoteChar
  · subst hq
    rw [show escapeChar quoteChar = [backslashChar, quoteChar] from rfl]
    exact strStep_simple_escape (by decide) (by decide) X
  · by_cases hb : c = backslashChar
    · subst hb
      rw [show escapeChar backslashChar = [backslashChar, backslashChar] from rfl]
      exact strStep_simple_escape (by decide) (by decide) X
    · by_cases hctl : c.toNat < 0x20
      · by_cases h8 : c.toNat = 0x08
        · have hesc : escapeChar c = [backslashChar, 'b'] := by
            unfold escapeChar
            rw [if_neg hq, if_neg hb, if_pos h8]
          rw [hesc, char_eq_ofNat_of_toNat h8]
          exact strStep_simple_escape (by decide) (by decide) X
        · by_cases h9 : c.toNat = 0x09
          · have hesc : escapeChar c = [backslashChar, 't'] := by
              unfold escapeChar
              rw [if_neg hq, if_neg hb, if_neg h8, if_pos h9]
            rw [hesc, char_eq_ofNat_of_toNat h9]
            exact strStep_simple_escape (by decide) (by decide) X
          · by_cases h10 : c.toNat = 0x0A
            · have hesc : escapeChar c = [backslashChar, 'n'] := by
                unfold escapeChar
                rw [if_neg hq, if_neg hb, if_neg h8, if_neg h9, if_pos h10]
              rw [hesc, char_eq_ofNat_of_toNat h10]
              exact strStep_simple_escape (by decide) (by decide) X
            · by_cases h12 : c.toNat = 0x0C
              · have hesc : escapeChar c = [backslashChar, 'f'] := by
                  unfold escapeChar
                  rw [if_neg hq, if_neg hb, if_neg h8, if_neg h9, if_neg h10, if_pos h12]
                rw [hesc, char_eq_ofNat_of_toNat h12]
                exact strStep_simple_escape (by decide) (by decide) X
              · by_cases h13 : c.toNat = 0x0D
                · have hesc : escapeChar c = [backslashChar, 'r'] := by
                    unfold escapeChar
                    rw [if_neg hq, if_neg hb, if_neg h8, if_neg h9, if_neg h10, if_neg h12,
                      if_pos h13]
                  rw [hesc, char_eq_ofNat_of_toNat h13]
                  exact strStep_simple_escape (by decide) (by decide) X
                · exact strStep_hex hq hb hctl h8 h9 h10 h12 h13 X
      · have hesc : escapeChar c = [c] := by
          unfold escapeChar
          rw [if_neg hq, if_neg hb]
          have n8 : ¬ c.toNat = 0x08 := by omega
          have n9 : ¬ c.toNat = 0x09 := by omega
          have n10 : ¬ c.toNat = 0x0A := by omega
          have n12 : ¬ c.toNat = 0x0C := by omega
          have n13 : ¬ c.toNat = 0x0D := by omega
          rw [if_neg n8, if_neg n9, if_neg n10, if_neg n12, if_neg n13, if_neg hctl]
        rw [hesc, List.cons_append, List.nil_append]
        exact strStep_raw hq hb hctl X

theorem parseStrF_print : ∀ (s : List Char) (f : Nat) (rest : List Char),
    s.length + 1 ≤ f →
    parseStrF f (s.flatMap escapeChar ++ (quoteChar :: rest)) = some (s, rest) := by
  intro s
  induction s with
  | nil =>
    intro f rest hf
    obtain ⟨g, rfl⟩ : ∃ g, f = g + 1 := ⟨f - 1, by omega⟩
    simp only [List.flatMap_nil, List.nil_append]
    rw [parseStrF]
    rfl
  | cons c s ih =>
    intro f rest hf
    obtain ⟨g, rfl⟩ : ∃ g, f = g + 1 := ⟨f - 1, by omega⟩
    simp only [List.flatMap_cons, List.append_assoc]
    rw [parseStrF, strStep_escapeChar]
    simp only []
    rw [ih g rest (by simp at hf; omega)]
    rfl

theorem length_le_flatMap_escape (s : List Char) :
    s.length ≤ (s.flatMap escapeChar).length := by
  induction s with
  | nil => simp
  | cons c s ih =>
    have : 1 ≤ (escapeChar c).length := by
      unfold escapeChar
      split_ifs <;> simp
    simp only [List.flatMap_cons, List.length_append, List.length_cons]
    omega

theorem parseStr_print (s rest : List Char) :
    parseStr (s.flatMap escapeChar ++ (quoteChar :: rest)) = some (s, rest) := by
  unfold parseStr
  refine parseStrF_print s _ rest ?_
  have := length_le_flatMap_escape s
  simp only [List.length_append, List.length_cons]
  omega

/-! ## Well-formed values, size bounds, and heads of printed values -/

/-- The values the model's serde parser can produce: every number lexeme is
grammatical. -/
def WF : Jv → Prop
  | .null => True
  | .bool _ => True
  | .num l => numOK l
  | .str _ => True
  | .arr xs => WFList xs
  | .obj ms => WFFields ms
where
  /-- All array elements are well-formed. -/
  WFList : List Jv → Prop
    | [] => True
    | x :: xs => WF x ∧ WFList xs
  /-- All object member values are well-formed. -/
  WFFields : List (List Char × Jv) → Prop
    | [] => True
    | m :: ms => WF m.2 ∧ WFFields ms

/-- Fuel needed by the parser on a printed value: one unit per recursion
step. -/
def sizeJv : Jv → Nat
  | .null => 1
  | .bool _ => 1
  | .num _ => 1
  | .str _ => 1
  | .arr xs => 1 + sizeList xs
  | .obj ms => 1 + sizeFields ms
where
  /-- Fuel needed for the element loop. -/
  sizeList : List Jv → Nat
    | [] => 1
    | x :: xs => 1 + sizeJv x + sizeList xs
  /-- Fuel needed for the member loop. -/
  sizeFields : List (List Char × Jv) → Nat
    | [] => 1
    | m :: ms => 1 + sizeJv m.2 + sizeFields ms

/-- What may follow a printed value in pretty output: nothing, a comma, or
a newline. -/
def restOK : List Char → Prop
  | [] => True
  | c :: _ => c = ',' ∨ c = nlChar

theorem restOK_numBoundary {rest : List Char} (h : restOK rest) : numBoundary rest := by
  cases rest with
  | nil => trivial
  | cons c t =>
    rcases h with rfl | rfl
    · exact ⟨by decide, by decide, by decide, by decide⟩
    · exact ⟨by decide, by decide, by decide, by decide⟩

theorem restOK_elems (d : Nat) (xs : List Jv) (rest : List Char) :
    restOK (prettyAux.prettyElemsAux d xs ++ rest) := by
  cases xs with
  | nil => exact Or.inr rfl
  | cons y ys => exact Or.inl rfl

theorem restOK_members (d : Nat) (ms : List (List Char × Jv)) (rest : List Char) :
    restOK (prettyAux.prettyMembersAux d ms ++ rest) := by
  cases ms with
  | nil => exact Or.inr rfl
  | cons m ms => exact Or.inl rfl

theorem numOK_head {l : List Char} (h : numOK l) :
    ∃ c t, l = c :: t ∧ (c = '-' ∨ isDigitChar c = true) := by
  obtain ⟨i, fr, e, rfl, hi, _, _⟩ := h
  cases i with
  | nil => simp [intOKb] at hi
  | cons c r =>
    refine ⟨c, r ++ fr ++ e, by simp, ?_⟩
    rw [intOKb] at hi
    split_ifs at hi with hm
    · exact Or.inl hm
    · right
      rw [intNoSignOKb] at hi
      split_ifs at hi with h0
      · subst h0
        decide
      · exact ((Bool.and_eq_true _ _).mp hi).1

theorem numHead_props {c : Char} (hc : c = '-' ∨ isDigitChar c = true) :
    isJsonWs c = false ∧ rustIsWhitespace c = false ∧ ¬ c = 'n' ∧ ¬ c = 't' ∧ ¬ c = 'f' ∧
      ¬ c = quoteChar ∧ (c = '-' || isDigitChar c) = true ∧ ¬ c = ']' ∧ ¬ c = '}' := by
  rcases hc with rfl | hd
  · refine ⟨by decide, by decide, by decide, by decide, by decide, by decide, by decide,
      by decide, by decide⟩
  · have hr : 0x30 ≤ c.toNat ∧ c.toNat ≤ 0x39 := by
      simpa [isDigitChar, Bool.and_eq_true] using hd
    have hne : ∀ d : Char, d.toNat < 0x30 ∨ 0x39 < d.toNat → ¬ c = d := by
      intro d hd2 he
      subst he
      omega
    refine ⟨?_, ?_, hne _ (by decide), hne _ (by decide), hne _ (by decide),
      hne _ (by decide), by simp [hd], hne _ (by decide), hne _ (by decide)⟩
    · simp only [isJsonWs, Bool.or_eq_false_iff, decide_eq_false_iff_not]
      omega
    · simp only [rustIsWhitespace, Bool.or_eq_false_iff, decide_eq_false_iff_not,
        Bool.and_eq_false_iff, not_le, decide_eq_true_eq]
      omega

theorem pretty_head {v : Jv} (hwf : WF v) (d : Nat) :
    ∃ c t, prettyAux d v = c :: t ∧ isJsonWs c = false ∧ rustIsWhitespace c = false ∧
      ¬ c = ']' ∧ ¬ c = '}' := by
  cases v with
  | null => exact ⟨'n', _, rfl, by decide, by decide, by decide, by decide⟩
  | bool b =>
    cases b with
    | true => exact ⟨'t', _, rfl, by decide, by decide, by decide, by decide⟩
    | false => exact ⟨'f', _, rfl, by decide, by decide, by decide, by decide⟩
  | num l =>
    obtain ⟨c, t, rfl, hc⟩ := numOK_head hwf
    have h := numHead_props hc
    exact ⟨c, t, rfl, h.1, h.2.1, h.2.2.2.2.2.2.2.1, h.2.2.2.2.2.2.2.2⟩
  | str s => exact ⟨quoteChar, _, rfl, by decide, by decide, by decide, by decide⟩
  | arr xs =>
    cases xs with
    | nil => exact ⟨'[', _, rfl, by decide, by decide, by decide, by decide⟩
    | cons x rest => exact ⟨'[', _, rfl, by decide, by decide, by decide, by decide⟩
  | obj ms =>
    cases ms with
    | nil => exact ⟨'{', _, rfl, by decide, by decide, by decide, by decide⟩
    | cons m rest => exact ⟨'{', _, rfl, by decide, by decide, by decide, by decide⟩

theorem skipWs_pretty {v : Jv} (hwf : WF v) (d : Nat) (X : List Char) :
    skipWs (prettyAux d v ++ X) = prettyAux d v ++ X := by
  obtain ⟨c, t, hct, hws, _⟩ := pretty_head hwf d
  rw [hct, List.cons_append, skipWs_cons_of hws]

theorem skipWs_printStr (s X : List Char) : skipWs (printStr s ++ X) = printStr s ++ X := by
  simp only [printStr, List.cons_append, List.append_assoc]
  rw [skipWs_cons_of (by decide)]

/-! ## The parser inverts the pretty-printer -/

mutual

/-- Parsing a pretty-printed well-formed value, with enough fuel and a
benign continuation, recovers the value exactly. -/
theorem parseJv_pretty : ∀ (v : Jv), WF v → ∀ (d f : Nat) (rest : List Char),
    sizeJv v ≤ f → restOK rest →
    parseJv f (prettyAux d v ++ rest) = some (v, rest)
  | .null, _, d, f, rest, hf, _ => by
    obtain ⟨g, rfl⟩ : ∃ g, f = g + 1 := ⟨f - 1, by simp [sizeJv] at hf; omega⟩
    rfl
  | .bool true, _, d, f, rest, hf, _ => by
    obtain ⟨g, rfl⟩ : ∃ g, f = g + 1 := ⟨f - 1, by simp [sizeJv] at hf; omega⟩
    rfl
  | .bool false, _, d, f, rest, hf, _ => by
    obtain ⟨g, rfl⟩ : ∃ g, f = g + 1 := ⟨f - 1, by simp [sizeJv] at hf; omega⟩
    rfl
  | .num l, hwf, d, f, rest, hf, hrest => by
    obtain ⟨g, rfl⟩ : ∃ g, f = g + 1 := ⟨f - 1, by simp [sizeJv] at hf; omega⟩
    have hnum : numOK l := hwf
    obtain ⟨c, t, rfl, hc⟩ := numOK_head hnum
    have h := numHead_props hc
    simp only [prettyAux, List.cons_append]
    rw [parseJv]
    rw [skipWs_cons_of h.1]
    simp only []
    rw [if_neg h.2.2.1, if_neg h.2.2.2.1, if_neg h.2.2.2.2.1, if_neg h.2.2.2.2.2.1,
      if_pos h.2.2.2.2.2.2.1]
    rw [← List.cons_append, numLex_glue hnum (restOK_numBoundary hrest)]
    rfl
  | .str s, _, d, f, rest, hf, _ => by
    obtain ⟨g, rfl⟩ : ∃ g, f = g + 1 := ⟨f - 1, by simp [sizeJv] at hf; omega⟩
    simp only [prettyAux, printStr, List.cons_append, List.append_assoc,
      List.singleton_append]
    rw [parseJv]
    rw [skipWs_cons_of (by decide)]
    simp only []
    rw [if_neg (by decide), if_neg (by decide), if_neg (by decide), if_pos trivial]
    rw [parseStr_print]
    rfl
  | .arr [], _, d, f, rest, hf, _ => by
    obtain ⟨g, rfl⟩ : ∃ g, f = g + 1 := ⟨f - 1, by simp [sizeJv] at hf; omega⟩
    rfl
  | .arr (x :: xs), hwf, d, f, rest, hf, hrest => by
    obtain ⟨g, rfl⟩ : ∃ g, f = g + 1 := ⟨f - 1, by simp [sizeJv] at hf; omega⟩
    have hl : WF.WFList (x :: xs) := hwf
    have hf2 : sizeJv.sizeList (x :: xs) ≤ g := by simp [sizeJv] at hf; omega
    obtain ⟨c2, t2, hct2, hws2, _, hrb2, _⟩ := pretty_head hl.1 (d + 1)
    simp only [prettyAux, List.cons_append, List.append_assoc, List.singleton_append,
      List.nil_append]
    rw [parseJv]
    rw [skipWs_cons_of (by decide)]
    simp only []
    rw [if_neg (by decide), if_neg (by decide), if_neg (by decide), if_neg (by decide),
      if_neg (by decide), if_pos trivial]
    rw [skipWs_nl_ind, hct2, List.cons_append, skipWs_cons_of hws2]
    simp only []
    rw [if_neg hrb2]
    rw [← List.cons_append, ← hct2]
    rw [parseElems_pretty x xs hl.1 hl.2 d g rest hf2 hrest]
    rfl
  | .obj [], _, d, f, rest, hf, _ => by
    obtain ⟨g, rfl⟩ : ∃ g, f = g + 1 := ⟨f - 1, by simp [sizeJv] at hf; omega⟩
    rfl
  | .obj (m :: ms), hwf, d, f, rest, hf, hrest => by
    obtain ⟨g, rfl⟩ : ∃ g, f = g + 1 := ⟨f - 1, by simp [sizeJv] at hf; omega⟩
    have hl : WF.WFFields (m :: ms) := hwf
    have hf2 : sizeJv.sizeFields ((m.1, m.2) :: ms) ≤ g := by
      simp [sizeJv, sizeJv.sizeFields] at hf ⊢
      omega
    simp only [prettyAux, printStr, List.cons_append, List.append_assoc,
      List.singleton_append, List.nil_append]
    rw [parseJv]
    rw [skipWs_cons_of (by decide)]
    simp only []
    rw [if_neg (by decide), if_neg (by decide), if_neg (by decide), if_neg (by decide),
      if_neg (by decide), if_neg (by decide), if_pos trivial]
    rw [skipWs_nl_ind, skipWs_cons_of (by decide)]
    simp only []
    rw [if_neg (by decide)]
    rw [parseMembers_pretty m.1 m.2 ms hl.1 hl.2 d g rest hf2 hrest]
    rfl
termination_by v hwf d f rest hf hrest => sizeJv v
decreasing_by
  all_goals simp_wf
  all_goals ((try simp [sizeJv, sizeJv.sizeList, sizeJv.sizeFields]) <;> omega)

/-- Parsing the elements of a pretty-printed non-empty array, positioned at
the first element, recovers the list. -/
theorem parseElems_pretty : ∀ (x : Jv) (xs : List Jv), WF x → WF.WFList xs →
    ∀ (d f : Nat) (rest : List Char), sizeJv.sizeList (x :: xs) ≤ f → restOK rest →
    parseElems f (prettyAux (d + 1) x ++ (prettyAux.prettyElemsAux d xs ++ rest)) =
      some (x :: xs, rest)
  | x, [], hwx, _, d, f, rest, hf, hrest => by
    obtain ⟨g, rfl⟩ : ∃ g, f = g + 1 := ⟨f - 1, by simp [sizeJv.sizeList] at hf; omega⟩
    have hfx : sizeJv x ≤ g := by simp [sizeJv.sizeList] at hf; omega
    rw [parseElems]
    rw [parseJv_pretty x hwx (d + 1) g (prettyAux.prettyElemsAux d [] ++ rest) hfx
      (restOK_elems d [] rest)]
    simp only [Option.bind_eq_bind, Option.some_bind]
    simp only [prettyAux.prettyElemsAux, List.cons_append, List.append_assoc,
      List.singleton_append, List.nil_append]
    rw [skipWs_nl_ind, skipWs_cons_of (by decide)]
    simp only []
    rw [if_neg (by decide), if_pos trivial]
  | x, y :: ys, hwx, hwxs, d, f, rest, hf, hrest => by
    obtain ⟨g, rfl⟩ : ∃ g, f = g + 1 := ⟨f - 1, by simp [sizeJv.sizeList] at hf; omega⟩
    have hfx : sizeJv x ≤ g := by simp [sizeJv.sizeList] at hf; omega
    have hfy : sizeJv.sizeList (y :: ys) ≤ g := by simp [sizeJv.sizeList] at hf ⊢; omega
    rw [parseElems]
    rw [parseJv_pretty x hwx (d + 1) g (prettyAux.prettyElemsAux d (y :: ys) ++ rest) hfx
      (restOK_elems d (y :: ys) rest)]
    simp only [Option.bind_eq_bind, Option.some_bind]
    simp only [prettyAux.prettyElemsAux, List.cons_append, List.append_assoc,
      List.singleton_append, List.nil_append]
    rw [skipWs_cons_of (by decide)]
    simp only []
    rw [if_pos trivial]
    rw [parseElems_congr_ws (skipWs_nl_ind (d + 1) _) g]
    rw [parseElems_pretty y ys hwxs.1 hwxs.2 d g rest hfy hrest]
    simp only [Option.bind_eq_bind, Option.some_bind]
termination_by x xs hwx hwxs d f rest hf hrest => sizeJv.sizeList (x :: xs)
decreasing_by
  all_goals simp_wf
  all_goals ((try simp [sizeJv, sizeJv.sizeList, sizeJv.sizeFields]) <;> omega)

/-- Parsing the members of a pretty-printed non-empty object, positioned at
the first key, recovers the list of members. -/
theorem parseMembers_pretty : ∀ (k : List Char) (v : Jv) (ms : List (List Char × Jv)),
    WF v → WF.WFFields ms → ∀ (d f : Nat) (rest : List Char),
    sizeJv.sizeFields ((k, v) :: ms) ≤ f → restOK rest →
    parseMembers f
        (quoteChar ::
          (k.flatMap escapeChar ++
            (quoteChar ::
              ':' :: ' ' :: (prettyAux (d + 1) v ++ (prettyAux.prettyMembersAux d ms ++ rest))))) =
      some ((k, v) :: ms, rest)
  | k, v, [], hv, _, d, f, rest, hf, hrest => by
    obtain ⟨g, rfl⟩ : ∃ g, f = g + 1 := ⟨f - 1, by simp [sizeJv.sizeFields] at hf; omega⟩
    have hfv : sizeJv v ≤ g := by simp [sizeJv.sizeFields] at hf; omega
    rw [parseMembers]
    simp only []
    rw [if_pos trivial]
    rw [parseStr_print]
    simp only [Option.bind_eq_bind, Option.some_bind]
    rw [skipWs_cons_of (by decide)]
    simp only []
    rw [if_pos trivial]
    rw [parseJv_congr_ws (skipWs_cons_ws (by decide) _) g]
    rw [parseJv_pretty v hv (d + 1) g (prettyAux.prettyMembersAux d [] ++ rest) hfv
      (restOK_members d [] rest)]
    simp only [Option.bind_eq_bind, Option.some_bind]
    simp only [prettyAux.prettyMembersAux, List.cons_append, List.append_assoc,
      List.singleton_append, List.nil_append]
    rw [skipWs_nl_ind, skipWs_cons_of (by decide)]
    simp only []
    rw [if_neg (by decide), if_pos trivial]
  | k, v, m2 :: ms2, hv, hms, d, f, rest, hf, hrest => by
    obtain ⟨g, rfl⟩ : ∃ g, f = g + 1 := ⟨f - 1, by simp [sizeJv.sizeFields] at hf; omega⟩
    have hfv : sizeJv v ≤ g := by simp [sizeJv.sizeFields] at hf; omega
    have hf2 : sizeJv.sizeFields ((m2.1, m2.2) :: ms2) ≤ g := by
      simp [sizeJv.sizeFields] at hf ⊢
      omega
    rw [parseMembers]
    simp only []
    rw [if_pos trivial]
    rw [parseStr_print]
    simp only [Option.bind_eq_bind, Option.some_bind]
    rw [skipWs_cons_of (by decide)]
    simp only []
    rw [if_pos trivial]
    rw [parseJv_congr_ws (skipWs_cons_ws (by decide) _) g]
    rw [parseJv_pretty v hv (d + 1) g (prettyAux.prettyMembersAux d (m2 :: ms2) ++ rest) hfv
      (restOK_members d (m2 :: ms2) rest)]
    simp only [Option.bind_eq_bind, Option.some_bind]
    simp only [prettyAux.prettyMembersAux, printStr, List.cons_append, List.append_assoc,
      List.singleton_append, List.nil_append]
    rw [skipWs_cons_of (by decide)]
    simp only []
    rw [if_pos trivial]
    rw [skipWs_nl_ind, skipWs_cons_of (by decide)]
    rw [parseMembers_pretty m2.1 m2.2 ms2 hms.1 hms.2 d g rest hf2 hrest]
    simp only [Option.bind_eq_bind, Option.some_bind]
termination_by k v ms hv hms d f rest hf hrest => sizeJv.sizeFields ((k, v) :: ms)
decreasing_by
  all_goals simp_wf
  all_goals ((try simp [sizeJv, sizeJv.sizeList, sizeJv.sizeFields]) <;> omega)

end

mutual

/-- The fuel bound is below the printed length. -/
theorem sizeJv_le_pretty : ∀ (v : Jv), WF v → ∀ (d : Nat), sizeJv v ≤ (prettyAux d v).length
  | .null, _, d => by simp [sizeJv, prettyAux]
  | .bool true, _, d => by simp [sizeJv, prettyAux]
  | .bool false, _, d => by simp [sizeJv, prettyAux]
  | .num l, hwf, d => by
    obtain ⟨c, t, rfl, -⟩ := numOK_head hwf
    simp [sizeJv, prettyAux]
  | .str s, _, d => by simp [sizeJv, prettyAux, printStr]
  | .arr [], _, d => by simp [sizeJv, sizeJv.sizeList, prettyAux]
  | .arr (x :: xs), hwf, d => by
    have hl : WF.WFList (x :: xs) := hwf
    have h1 := sizeJv_le_pretty x hl.1 (d + 1)
    have h2 := sizeList_le_pretty xs hl.2 d
    simp [sizeJv, sizeJv.sizeList, prettyAux, List.length_append]
    omega
  | .obj [], _, d => by simp [sizeJv, sizeJv.sizeFields, prettyAux]
  | .obj (m :: ms), hwf, d => by
    have hl : WF.WFFields (m :: ms) := hwf
    have h1 := sizeJv_le_pretty m.2 hl.1 (d + 1)
    have h2 := sizeFields_le_pretty ms hl.2 d
    simp [sizeJv, sizeJv.sizeFields, prettyAux, List.length_append]
    omega
termination_by v hwf d => sizeJv v
decreasing_by
  all_goals simp_wf
  all_goals ((try simp [sizeJv, sizeJv.sizeList, sizeJv.sizeFields]) <;> omega)

/-- Fuel bound for the element loop. -/
theorem sizeList_le_pretty : ∀ (xs : List Jv), WF.WFList xs →
    ∀ (d : Nat), sizeJv.sizeList xs ≤ (prettyAux.prettyElemsAux d xs).length
  | [], _, d => by simp [sizeJv.sizeList, prettyAux.prettyElemsAux]
  | y :: ys, hwf, d => by
    have h1 := sizeJv_le_pretty y hwf.1 (d + 1)
    have h2 := sizeList_le_pretty ys hwf.2 d
    simp [sizeJv.sizeList, prettyAux.prettyElemsAux, List.length_append]
    omega
termination_by xs hwf d => sizeJv.sizeList xs
decreasing_by
  all_goals simp_wf
  all_goals ((try simp [sizeJv, sizeJv.sizeList, sizeJv.sizeFields]) <;> omega)

/-- Fuel bound for the member loop. -/
theorem sizeFields_le_pretty : ∀ (ms : List (List Char × Jv)), WF.WFFields ms →
    ∀ (d : Nat), sizeJv.sizeFields ms ≤ (prettyAux.prettyMembersAux d ms).length
  | [], _, d => by simp [sizeJv.sizeFields, prettyAux.prettyMembersAux]
  | m :: ms, hwf, d => by
    have h1 := sizeJv_le_pretty m.2 hwf.1 (d + 1)
    have h2 := sizeFields_le_pretty ms hwf.2 d
    simp [sizeJv.sizeFields, prettyAux.prettyMembersAux, printStr, List.length_append]
    omega
termination_by ms hwf d => sizeJv.sizeFields ms
decreasing_by
  all_goals simp_wf
  all_goals ((try simp [sizeJv, sizeJv.sizeList, sizeJv.sizeFields]) <;> omega)

end

/-- A well-formed value pretty-prints to a document that parses back to the
value itself. -/
theorem parseDoc_pretty {v : Jv} (hwf : WF v) : parseDoc (prettyAux 0 v) = some v := by
  unfold parseDoc
  have h1 : parseJv ((prettyAux 0 v).length + 1) (prettyAux 0 v ++ []) = some (v, []) :=
    parseJv_pretty v hwf 0 _ [] (by have := sizeJv_le_pretty v hwf 0; omega) trivial
  rw [List.append_nil] at h1
  rw [h1]
  rfl

/-- Everything the parser returns is well-formed: in particular every number
lexeme it accepts is grammatical. -/
theorem parse_wf : ∀ (f : Nat),
    (∀ s v r, parseJv f s = some (v, r) → WF v) ∧
    (∀ s vs r, parseElems f s = some (vs, r) → WF.WFList vs) ∧
    (∀ s ms r, parseMembers f s = some (ms, r) → WF.WFFields ms) := by
  intro f
  induction f with
  | zero =>
    refine ⟨?_, ?_, ?_⟩ <;> intro s v r h <;>
      exact absurd h (by simp [parseJv, parseElems, parseMembers])
  | succ g ih =>
    refine ⟨?_, ?_, ?_⟩
    · intro s v r h
      rw [parseJv] at h
      cases hsw : skipWs s with
      | nil => rw [hsw] at h; exact absurd h (by simp)
      | cons c cs =>
        rw [hsw] at h
        simp only [] at h
        split_ifs at h with h1 h2 h3 h4 h5 h6 h7
        · split at h
          · obtain ⟨rfl, -⟩ : Jv.null = v ∧ _ = r := by
              simpa [Prod.mk.injEq] using h
            trivial
          · exact absurd h (by simp)
        · split at h
          · obtain ⟨rfl, -⟩ : Jv.bool true = v ∧ _ = r := by
              simpa [Prod.mk.injEq] using h
            trivial
          · exact absurd h (by simp)
        · split at h
          · obtain ⟨rfl, -⟩ : Jv.bool false = v ∧ _ = r := by
              simpa [Prod.mk.injEq] using h
            trivial
          · exact absurd h (by simp)
        · cases hps : parseStr cs with
          | none => rw [hps] at h; exact absurd h (by simp)
          | some p =>
            rw [hps] at h
            obtain ⟨rfl, -⟩ : Jv.str p.1 = v ∧ p.2 = r := by
              simpa [Prod.mk.injEq] using h
            trivial
        · cases hnl : numLex (c :: cs) with
          | none => rw [hnl] at h; exact absurd h (by simp)
          | some p =>
            rw [hnl] at h
            obtain ⟨rfl, -⟩ : Jv.num p.1 = v ∧ p.2 = r := by
              simpa [Prod.mk.injEq] using h
            exact numLex_sound hnl
        · cases hs2 : skipWs cs with
          | nil => rw [hs2] at h; exact absurd h (by simp)
          | cons c2 r2 =>
            rw [hs2] at h
            simp only [] at h
            split_ifs at h with hb
            · obtain ⟨rfl, -⟩ : Jv.arr [] = v ∧ r2 = r := by
                simpa [Prod.mk.injEq] using h
              trivial
            · cases hpe : parseElems g (c2 :: r2) with
              | none => rw [hpe] at h; exact absurd h (by simp)
              | some p =>
                rw [hpe] at h
                obtain ⟨rfl, -⟩ : Jv.arr p.1 = v ∧ p.2 = r := by
                  simpa [Prod.mk.injEq] using h
                exact ih.2.1 _ _ _ hpe
        · cases hs2 : skipWs cs with
          | nil => rw [hs2] at h; exact absurd h (by simp)
          | cons c2 r2 =>
            rw [hs2] at h
            simp only [] at h
            split_ifs at h with hb
            · obtain ⟨rfl, -⟩ : Jv.obj [] = v ∧ r2 = r := by
                simpa [Prod.mk.injEq] using h
              trivial
            · cases hpm : parseMembers g (c2 :: r2) with
              | none => rw [hpm] at h; exact absurd h (by simp)
              | some p =>
                rw [hpm] at h
                obtain ⟨rfl, -⟩ : Jv.obj p.1 = v ∧ p.2 = r := by
                  simpa [Prod.mk.injEq] using h
                exact ih.2.2 _ _ _ hpm
    · intro s vs r h
      rw [parseElems] at h
      cases hp : parseJv g s with
      | none => rw [hp] at h; exact absurd h (by simp)
      | some p =>
        rw [hp] at h
        simp only [Option.bind_eq_bind, Option.some_bind] at h
        cases hs2 : skipWs p.2 with
        | nil => rw [hs2] at h; exact absurd h (by simp)
        | cons c2 r2 =>
          rw [hs2] at h
          simp only [] at h
          split_ifs at h with hc1 hc2
          · cases hq : parseElems g r2 with
            | none => rw [hq] at h; exact absurd h (by simp)
            | some q =>
              rw [hq] at h
              obtain ⟨rfl, -⟩ : p.1 :: q.1 = vs ∧ q.2 = r := by
                simpa [Prod.mk.injEq] using h
              exact ⟨ih.1 _ _ _ hp, ih.2.1 _ _ _ hq⟩
          · obtain ⟨rfl, -⟩ : [p.1] = vs ∧ r2 = r := by
              simpa [Prod.mk.injEq] using h
            exact ⟨ih.1 _ _ _ hp, trivial⟩
    · intro s ms r h
      cases s with
      | nil => exact absurd h (by simp [parseMembers])
      | cons c cs =>
        rw [parseMembers] at h
        simp only [] at h
        split_ifs at h with hq
        cases hps : parseStr cs with
        | none => rw [hps] at h; exact absurd h (by simp)
        | some pk =>
          rw [hps] at h
          simp only [Option.bind_eq_bind, Option.some_bind] at h
          cases hs2 : skipWs pk.2 with
          | nil => rw [hs2] at h; exact absurd h (by simp)
          | cons c2 r2 =>
            rw [hs2] at h
            simp only [] at h
            split_ifs at h with hc
            cases hpv : parseJv g r2 with
            | none => rw [hpv] at h; exact absurd h (by simp)
            | some pv =>
              rw [hpv] at h
              simp only [Option.bind_eq_bind, Option.some_bind] at h
              cases hs3 : skipWs pv.2 with
              | nil => rw [hs3] at h; exact absurd h (by simp)
              | cons c3 r4 =>
                rw [hs3] at h
                simp only [] at h
                split_ifs at h with hd1 hd2
                · cases hpm : parseMembers g (skipWs r4) with
                  | none => rw [hpm] at h; exact absurd h (by simp)
                  | some pm =>
                    rw [hpm] at h
                    obtain ⟨rfl, -⟩ : (pk.1, pv.1) :: pm.1 = ms ∧ pm.2 = r := by
                      simpa [Prod.mk.injEq] using h
                    exact ⟨ih.1 _ _ _ hpv, ih.2.2 _ _ _ hpm⟩
                · obtain ⟨rfl, -⟩ : [(pk.1, pv.1)] = ms ∧ r4 = r := by
                    simpa [Prod.mk.injEq] using h
                  exact ⟨ih.1 _ _ _ hpv, trivial⟩

/-- A successfully parsed document is well-formed. -/
theorem parseDoc_wf {x : List Char} {v : Jv} (h : parseDoc x = some v) : WF v := by
  unfold parseDoc at h
  cases hp : parseJv (x.length + 1) x with
  | none => rw [hp] at h; exact absurd h (by simp)
  | some p =>
    rw [hp] at h
    simp only [] at h
    split_ifs at h
    · injection h with h1
      rw [← h1]
      exact (parse_wf _).1 _ _ _ hp

/-! ## Non-blank inputs: relating the parser to Rust `trim` -/

theorem dropWhile_head_false {p : Char → Bool} :
    ∀ {l : List Char} {c : Char} {cs : List Char}, l.dropWhile p = c :: cs → p c = false := by
  intro l
  induction l with
  | nil => intro c cs h; exact absurd h (by simp)
  | cons b t ih =>
    intro c cs h
    rw [List.dropWhile_cons] at h
    split_ifs at h with hb
    · exact ih h
    · injection h with h1 _
      rw [← h1]
      exact Bool.not_eq_true _ ▸ hb

theorem mem_of_dropWhile_cons {p : Char → Bool} :
    ∀ {l : List Char} {c : Char} {cs : List Char}, l.dropWhile p = c :: cs → c ∈ l := by
  intro l
  induction l with
  | nil => intro c cs h; exact absurd h (by simp)
  | cons b t ih =>
    intro c cs h
    rw [List.dropWhile_cons] at h
    split_ifs at h with hb
    · exact List.mem_cons_of_mem b (ih h)
    · injection h with h1 _
      rw [h1]
      exact List.mem_cons_self c t

theorem mem_dropWhile_of_mem {p : Char → Bool} {a : Char} :
    ∀ {l : List Char}, a ∈ l → p a = false → a ∈ l.dropWhile p := by
  intro l
  induction l with
  | nil => intro h _; exact absurd h (by simp)
  | cons b t ih =>
    intro h hp
    rw [List.dropWhile_cons]
    split_ifs with hb
    · rcases List.mem_cons.mp h with rfl | hm
      · rw [hp] at hb
        exact absurd hb (by simp)
      · exact ih hm hp
    · exact h

theorem rustTrim_ne_nil {x : List Char} {a : Char} (ha : a ∈ x)
    (hp : rustIsWhitespace a = false) : rustTrim x ≠ [] := by
  unfold rustTrim
  intro h
  rw [List.reverse_eq_nil_iff] at h
  have hmem : a ∈ (x.dropWhile rustIsWhitespace).reverse :=
    List.mem_reverse.mpr (mem_dropWhile_of_mem ha hp)
  have := mem_dropWhile_of_mem hmem hp
  rw [h] at this
  exact absurd this (by simp)

/-- A successful parse starts at a character that Rust `trim` keeps. -/
theorem parseJv_success_head {f : Nat} {x : List Char} {p : Jv × List Char}
    (h : parseJv (f + 1) x = some p) :
    ∃ c cs, skipWs x = c :: cs ∧ rustIsWhitespace c = false := by
  rw [parseJv] at h
  cases hsw : skipWs x with
  | nil => rw [hsw] at h; exact absurd h (by simp)
  | cons c cs =>
    rw [hsw] at h
    simp only [] at h
    refine ⟨c, cs, rfl, ?_⟩
    split_ifs at h with h1 h2 h3 h4 h5 h6 h7
    · rw [h1]; decide
    · rw [h2]; decide
    · rw [h3]; decide
    · rw [h4]; decide
    · rcases (Bool.or_eq_true _ _).mp h5 with hm | hd
      · exact (numHead_props (Or.inl (of_decide_eq_true hm))).2.1
      · exact (numHead_props (Or.inr hd)).2.1
    · rw [h6]; decide
    · rw [h7]; decide

/-- An input that parses as a document is not blank in Rust's sense. -/
theorem parseDoc_rustTrim {x : List Char} {v : Jv} (h : parseDoc x = some v) :
    (rustTrim x).isEmpty = false := by
  unfold parseDoc at h
  cases hp : parseJv (x.length + 1) x with
  | none => rw [hp] at h; exact absurd h (by simp)
  | some p =>
    obtain ⟨c, cs, hsw, hrc⟩ := parseJv_success_head hp
    have hmem : c ∈ x := mem_of_dropWhile_cons hsw
    have hne := rustTrim_ne_nil hmem hrc
    cases h2 : rustTrim x with
    | nil => exact absurd h2 hne
    | cons a b => rfl

/-- Pretty output is a fixed point of `format_json`. -/
theorem format_json_pretty {v : Jv} (hwf : WF v) :
    format_json (prettyAux 0 v) = .ok (prettyAux 0 v) := by
  obtain ⟨c, t, hct, _, hrws, _, _⟩ := pretty_head hwf 0
  unfold format_json
  rw [if_neg ?hne, parseDoc_pretty hwf]
  case hne =>
    rw [hct]
    intro hc
    exact rustTrim_ne_nil (List.mem_cons_self c t) hrws (List.isEmpty_iff.mp hc)

/-! ## XML formatting and validation

`format_xml` and `validate_xml` delegate all actual XML work to the external
`quick-xml` crate: `validate_xml` runs the crate's event reader over the
input, and `format_xml` first calls `validate_xml` and then re-emits the
event stream through the crate's indenting writer.  The model keeps the
functions' own logic — the blank-input gates and the error routing — and
passes the crate behaviour in as parameters `scan` (the read loop) and
`emit` (the read/write loop). -/

/-- The error cases of `format_xml`/`validate_xml`: the `"Empty input"`
message, the `"Invalid XML: ..."` wrapper from validation, and the read or
write errors of the re-emission loop. -/
inductive XmlError (E : Type) where
  | emptyInput
  | invalid (e : E)
  | readWrite (e : E)

/-- `validate_xml`: empty or whitespace-only input is valid; otherwise scan
the event stream and wrap any reader error. -/
def validate_xml {E : Type} (scan : List Char → Except E Unit)
    (input : List Char) : Except (XmlError E) Unit :=
  if (rustTrim input).isEmpty then .ok ()
  else
    match scan input with
    | .ok _ => .ok ()
    | .error e => .error (.invalid e)

/-- `format_xml`: empty or whitespace-only input is the `"Empty input"`
error; otherwise validate first (propagating its error), then re-emit the
events with the indenting writer. -/
def format_xml {E : Type} (scan : List Char → Except E Unit)
    (emit : List Char → Except E (List Char))
    (input : List Char) : Except (XmlError E) (List Char) :=
  if (rustTrim input).isEmpty then .error .emptyInput
  else
    match validate_xml scan input with
    | .error e => .error e
    | .ok _ =>
      match emit input with
      | .ok s => .ok s
      | .error e => .error (.readWrite e)

/-! ## History loading (db.rs) -/

/-- HTTP methods supported by the client (`types.rs`). -/
inductive HttpMethod where
  | GET
  | POST
  | PUT
  | DELETE
  | PATCH
  | HEAD
  | OPTIONS
deriving DecidableEq

/-- ASCII-range model of Rust's `str::to_uppercase` as used by
`HttpMethod::from_str`; only ASCII matters for matching the seven method
names. -/
def asciiUpperChar (c : Char) : Char :=
  if 'a' ≤ c && c ≤ 'z' then Char.ofNat (c.toNat - 32) else c

/-- `HttpMethod::from_str`: uppercase, then match the seven names. -/
def HttpMethod.fromStr (s : List Char) : Option HttpMethod :=
  let u := s.map asciiUpperChar
  if u = "GET".data then some .GET
  else if u = "POST".data then some .POST
  else if u = "PUT".data then some .PUT
  else if u = "DELETE".data then some .DELETE
  else if u = "PATCH".data then some .PATCH
  else if u = "HEAD".data then some .HEAD
  else if u = "OPTIONS".data then some .OPTIONS
  else none

/-- Raw body subtype (`types.rs`). -/
inductive RawSubtype where
  | json
  | xml
  | text
  | javascript
deriving DecidableEq

/-- Form-data value (`types.rs`). -/
inductive FormDataValue where
  | text (s : List Char)
  | file (path : List Char)
deriving DecidableEq

/-- Form-data row (`types.rs`). -/
structure FormDataRow where
  enabled : Bool
  key : List Char
  value : FormDataValue
deriving DecidableEq

/-- Request body type (`types.rs`). -/
inductive BodyType where
  | none
  | raw (content : List Char) (subtype : RawSubtype)
  | formData (rows : List FormDataRow)
deriving DecidableEq

/-- `impl Default for BodyType`: `Raw` with empty content and `Json`
subtype. -/
def BodyType.default : BodyType := .raw [] .json

/-- Request data (`types.rs`). -/
structure RequestData where
  method : HttpMethod
  url : List Char
  headers : List (List Char × List Char)
  body : BodyType
deriving DecidableEq

/-- The request half of `load_recent_history`'s row mapping (`db.rs`): the
stored method, headers and body strings are deserialised with Rust's
`unwrap_or`/`unwrap_or_default` fallbacks, so the mapping is total.  The
serde_json deserialisers are external collaborators passed in as
`deserHeaders` and `deserBody`. -/
def loadHistoryRequest (deserHeaders : List Char → Option (List (List Char × List Char)))
    (deserBody : List Char → Option BodyType)
    (method url request_headers request_body : List Char) : RequestData :=
  { method := (HttpMethod.fromStr method).getD .GET
    url := url
    headers := (deserHeaders request_headers).getD []
    body := (deserBody request_body).getD BodyType.default }

/-! ## Claim C3 -/

/-- C3: on every input that parses as JSON, `format_json` succeeds and
returns exactly the pretty-printing of the parsed value — two-space
indentation (`ind`), object members emitted in the order in which
`parseMembers` encountered them in the input (no sorting), and array
elements in input order. -/
theorem format_json_preserves_order (x : List Char) (v : Jv) (h : parseDoc x = some v) :
    format_json x = .ok (prettyAux 0 v) := by
  unfold format_json
  rw [if_neg (by simp [parseDoc_rustTrim h]), h]

/-- C3 (witness): an object whose keys arrive as `b` then `a` is printed
with `b` still before `a`. -/
theorem format_json_preserves_order_witness :
    format_json ("\x7b\"b\":1,\"a\":2\x7d".data) =
      .ok ("\x7b\n  \"b\": 1,\n  \"a\": 2\n\x7d".data) :=
  (format_json_preserves_order ("\x7b\"b\":1,\"a\":2\x7d".data)
    (Jv.obj [("b".data, Jv.num "1".data), ("a".data, Jv.num "2".data)]) (by rfl)).trans
    (by rfl)

/-! ## Claim C4 -/

/-- C4: formatting is idempotent — whenever `format_json` succeeds, running
it again on the output succeeds and returns the output unchanged. -/
theorem format_json_idem (x s : List Char) (h : format_json x = .ok s) :
    format_json s = .ok s := by
  unfold format_json at h
  split_ifs at h with htr
  cases hp : parseDoc x with
  | none => rw [hp] at h; exact absurd h (by simp)
  | some v =>
    rw [hp] at h
    injection h with h1
    rw [← h1]
    exact format_json_pretty (parseDoc_wf hp)

/-- C4 (witness). -/
theorem format_json_idem_witness :
    format_json ("\x7b\n  \"a\": 1\n\x7d".data) = .ok ("\x7b\n  \"a\": 1\n\x7d".data) :=
  format_json_idem ("\x7b\"a\":1\x7d".data) ("\x7b\n  \"a\": 1\n\x7d".data) (by rfl)

/-! ## Claim C5 -/

/-- C5 (counterexample): the failure direction is false on blank input —
`format_json ""` fails with the empty-input error while `validate_json ""`
succeeds. -/
theorem format_validate_counterexample :
    format_json [] = .error .emptyInput ∧ validate_json [] = .ok () :=
  ⟨rfl, rfl⟩

/-- C5 (amended): whenever `format_json` succeeds `validate_json`
succeeds, and whenever `format_json` fails with a parse error (that is, on
any failing input that is not empty or whitespace-only) `validate_json`
fails too; on blank input the two deliberately disagree. -/
theorem format_validate_amended (x : List Char) :
    (∀ s, format_json x = .ok s → validate_json x = .ok ()) ∧
    (format_json x = .error .parseError → validate_json x = .error .invalidJson) := by
  constructor
  · intro s h
    unfold format_json at h
    unfold validate_json
    split_ifs at h ⊢ with htr
    cases hp : parseDoc x with
    | none => rw [hp] at h; exact absurd h (by simp)
    | some v => rfl
  · intro h
    unfold format_json at h
    unfold validate_json
    split_ifs at h ⊢ with htr
    · exact absurd h (by simp)
    · cases hp : parseDoc x with
      | none => rfl
      | some v => rw [hp] at h; exact absurd h (by simp)

/-- C5 (witness for the amended theorem): both directions at concrete
inputs. -/
theorem format_validate_amended_witness :
    validate_json ('1' :: []) = .ok () ∧ validate_json ('[' :: []) = .error .invalidJson :=
  ⟨(format_validate_amended ('1' :: [])).1 ('1' :: []) (by rfl),
    (format_validate_amended ('[' :: [])).2 (by rfl)⟩

/-! ## Claim C6 -/

/-- C6: on every empty or whitespace-only input (in the sense of Rust
`str::trim`), `validate_json` and `validate_xml` succeed while
`format_json` and `format_xml` fail with the empty-input error (the
`"Empty input"` message), whatever the XML crate collaborators do. -/
theorem empty_input_cases {E : Type} (scan : List Char → Except E Unit)
    (emit : List Char → Except E (List Char)) (x : List Char)
    (h : (rustTrim x).isEmpty = true) :
    validate_json x = .ok () ∧ format_json x = .error .emptyInput ∧
      validate_xml scan x = .ok () ∧ format_xml scan emit x = .error .emptyInput := by
  refine ⟨?_, ?_, ?_, ?_⟩ <;> simp [validate_json, format_json, validate_xml, format_xml, h]

/-- C6 (witness): at a whitespace-only input and trivial collaborators. -/
theorem empty_input_cases_witness :
    validate_json (' ' :: []) = .ok () ∧ format_json (' ' :: []) = .error .emptyInput ∧
      validate_xml (fun _ : List Char => (.ok () : Except Unit Unit)) (' ' :: []) = .ok () ∧
      format_xml (fun _ : List Char => (.ok () : Except Unit Unit))
        (fun s : List Char => (.ok s : Except Unit (List Char))) (' ' :: []) =
          .error .emptyInput :=
  empty_input_cases _ _ (' ' :: []) (by decide)

/-! ## Claim C9 -/

/-- C9: if the stored request-body JSON does not deserialise to a
`BodyType`, loading a history row falls back to the default body — `Raw`
with empty content and `Json` subtype — rather than failing;
`loadHistoryRequest` is a total function, so loading always produces a
`RequestData`. -/
theorem load_history_body_fallback
    (deserHeaders : List Char → Option (List (List Char × List Char)))
    (deserBody : List Char → Option BodyType)
    (method url request_headers request_body : List Char)
    (h : deserBody request_body = none) :
    (loadHistoryRequest deserHeaders deserBody method url request_headers request_body).body =
      BodyType.raw [] RawSubtype.json := by
  simp [loadHistoryRequest, BodyType.default, h]

/-- C9 (witness): a concrete corrupt body string with deserialisers that
reject it. -/
theorem load_history_body_fallback_witness :
    (loadHistoryRequest (fun _ => some []) (fun _ => Option.none) "GET".data "u".data []
        "bogus".data).body =
      BodyType.raw [] RawSubtype.json :=
  load_history_body_fallback (fun _ => some []) (fun _ => Option.none) "GET".data "u".data []
    "bogus".data rfl

end Poopman
